import Mathlib

/-!
# cgiserver: dispatcher, FastCGI environment and FastCGI response parser

A shallow embedding of `cgiserver.go`.  Go strings are modelled as lists of
Unicode code points (`List Char`): every string the handler inspects is split
at ASCII separators only, so valid UTF-8 text behaves the same on bytes and on
code points.  Go maps are association lists with unique keys, written in
insertion order.  A Go run-time panic is an explicit `Except.error`.

Library functions (`strings`, `strconv`, `path/filepath` for Unix) are
modelled after the Go standard library.
-/

namespace Cgiserver

/-- Go `string`, as its sequence of code points. -/
abbrev Str := List Char

/-! ## package `strings` -/

/-- Model of `strings.HasPrefix`. -/
def HasPrefix (s pre : Str) : Bool := pre.isPrefixOf s

/-- Model of `strings.Index`: the position of the first occurrence of `sep` in
`s`, `none` where Go returns `-1`. -/
def Index : Str → Str → Option Nat
  | [], sep => if sep.isPrefixOf [] then some 0 else none
  | c :: t, sep =>
    if sep.isPrefixOf (c :: t) then some 0 else (Index t sep).map Nat.succ

/-- Loop of `strings.Count` for a separator of two or more bytes; the fuel is
the length of the text, one unit being enough for each round. -/
def countLoop (sep : Str) : Nat → Str → Nat
  | 0, _ => 0
  | fuel + 1, s =>
    match Index s sep with
    | none => 0
    | some i => countLoop sep fuel (s.drop (i + sep.length)) + 1

/-- Model of `strings.Count` for a non-empty separator: a one-byte separator
is counted directly, a longer one with repeated `Index`. -/
def Count (s sep : Str) : Nat :=
  match sep with
  | [c] => s.count c
  | _ => countLoop sep s.length s

/-- Loop of `strings.genSplit`: at most `k` cuts, then the rest. -/
def splitLoop (sep : Str) : Nat → Str → List Str
  | 0, s => [s]
  | k + 1, s =>
    match Index s sep with
    | none => [s]
    | some m => s.take m :: splitLoop sep k (s.drop (m + sep.length))

/-- Model of `strings.SplitN(s, sep, n)` for a non-empty separator and
`n ≥ 0` (the separator is a non-empty literal at every call site): `n = 0`
gives no substrings, and `n` is capped at `len(s) + 1`. -/
def SplitN (s sep : Str) (n : Nat) : List Str :=
  if n = 0 then [] else splitLoop sep (min n (s.length + 1) - 1) s

/-- Model of `strings.Split(s, sep)` for a non-empty separator:
`genSplit(s, sep, 0, -1)`, where the count is `Count(s, sep) + 1`. -/
def Split (s sep : Str) : List Str :=
  splitLoop sep (min (Count s sep + 1) (s.length + 1) - 1) s

/-- Model of `unicode.IsSpace`: the code points with the White_Space
property. -/
def isSpace (c : Char) : Bool :=
  let n := c.toNat
  (9 ≤ n && n ≤ 13) || n = 32 || n = 0x85 || n = 0xA0 || n = 0x1680 ||
  (0x2000 ≤ n && n ≤ 0x200A) || n = 0x2028 || n = 0x2029 || n = 0x202F ||
  n = 0x205F || n = 0x3000

/-- Model of `strings.TrimSpace`: leading and trailing white space removed. -/
def TrimSpace (s : Str) : Str :=
  (s.dropWhile isSpace).rdropWhile isSpace

/-- Model of `strings.Join`. -/
def Join (elems : List Str) (sep : Str) : Str :=
  sep.intercalate elems

/-! ## package `strconv` -/

/-- Width of Go `int` on the 64-bit platforms. -/
def intSize : Nat := 64

/-- Loop of `strconv.ParseUint(s, 10, 64)`: `none` is a syntax error,
`some (v, false)` the value, `some (maxVal, true)` a range error, which is
returned as soon as the accumulator overflows. -/
def parseUintLoop : Nat → Str → Option (Nat × Bool)
  | n, [] => some (n, false)
  | n, c :: cs =>
    if '0' ≤ c ∧ c ≤ '9' then
      if n ≥ (2 ^ 64 - 1) / 10 + 1 then some (2 ^ 64 - 1, true)
      else
        let n1 := n * 10 + (c.toNat - '0'.toNat)
        if n1 > 2 ^ 64 - 1 then some (2 ^ 64 - 1, true)
        else parseUintLoop n1 cs
    else none

/-- Model of `strconv.ParseUint(s, 10, 64)`. -/
def ParseUint (s : Str) : Option (Nat × Bool) :=
  if s = [] then none else parseUintLoop 0 s

/-- Model of `strconv.ParseInt(s, 10, 0)`: the value and whether an error is
returned.  A syntax error gives `0`; a range error gives the nearest bound of
`int`. -/
def ParseInt (s : Str) : Int × Bool :=
  match s with
  | [] => (0, true)
  | c :: cs =>
    let neg := c = '-'
    let digits := if c = '+' ∨ c = '-' then cs else c :: cs
    match ParseUint digits with
    | none => (0, true)
    | some (un, _) =>
      let cutoff : Nat := 2 ^ (intSize - 1)
      if ¬ neg ∧ un ≥ cutoff then ((cutoff : Int) - 1, true)
      else if neg ∧ un > cutoff then (-(cutoff : Int), true)
      else (if neg then -(un : Int) else (un : Int), false)

/-- Fast path of `strconv.Atoi`: plain accumulation of decimal digits, `none`
on a character that is no digit. -/
def atoiFast : Nat → Str → Option Nat
  | n, [] => some n
  | n, c :: cs =>
    if '0' ≤ c ∧ c ≤ '9' then atoiFast (n * 10 + (c.toNat - '0'.toNat)) cs
    else none

/-- Byte length of a string (`len(s)` in Go). -/
def byteLen (s : Str) : Nat := (s.map Char.utf8Size).sum

/-- Model of `strconv.Atoi`: the value and whether an error is returned.
Strings shorter than 19 bytes take the fast path, the others `ParseInt`. -/
def Atoi (s : Str) : Int × Bool :=
  if 0 < byteLen s ∧ byteLen s < 19 then
    match s with
    | [] => (0, true)
    | c :: cs =>
      let digits := if c = '-' ∨ c = '+' then cs else c :: cs
      if digits = [] then (0, true)
      else
        match atoiFast 0 digits with
        | none => (0, true)
        | some n => (if c = '-' then -(n : Int) else (n : Int), false)
  else ParseInt s

/-! ## Go maps and run-time panics -/

/-- Go `map[string]V` as an association list with unique keys. -/
abbrev GoMap (V : Type) := List (Str × V)

/-- Map read `m[k]` with the comma-ok form. -/
def GoMap.get {V : Type} (m : GoMap V) (k : Str) : Option V :=
  match m with
  | [] => none
  | (k', v) :: rest => if k' = k then some v else GoMap.get rest k

/-- Map write `m[k] = v`: the value of an existing key is replaced, a new key
is added. -/
def GoMap.set {V : Type} (m : GoMap V) (k : Str) (v : V) : GoMap V :=
  match m with
  | [] => [(k, v)]
  | (k', v') :: rest =>
    if k' = k then (k, v) :: rest else (k', v') :: GoMap.set rest k v

/-- Run-time panic of Go. -/
inductive Panic where
  | indexOutOfRange (index len : Nat)
  deriving DecidableEq, Repr

/-- Slice read `xs[i]`, which panics when `i` is out of range. -/
def index {α : Type} (xs : List α) (i : Nat) : Except Panic α :=
  match xs.get? i with
  | some x => .ok x
  | none => .error (.indexOutOfRange i xs.length)

/-! ## `ParseFastCgiResponse` -/

/-- Results of `ParseFastCgiResponse`: `(int, map[string]string, string, error)`;
`err` holds the message of a non-nil error. -/
structure ParseResult where
  status : Int
  headers : GoMap Str
  body : Str
  err : Option Str
  deriving DecidableEq, Repr

/-- The `for _, line := range headerParts` loop of `ParseFastCgiResponse`. -/
def headerLoop (headers : GoMap Str) : List Str → GoMap Str
  | [] => headers
  | line :: rest =>
    match SplitN line ":".toList 2 with
    | name :: value :: _ =>
      let value := TrimSpace value
      if name = "Status".toList then headerLoop headers rest
      else headerLoop (headers.set name value) rest
    | _ => headerLoop headers rest

/-- `(*CgiHandler).ParseFastCgiResponse`, cgiserver.go lines 165-200. -/
def ParseFastCgiResponse (content : Str) : Except Panic ParseResult := do
  let headers : GoMap Str := []
  let parts := SplitN content "\r\n\r\n".toList 2
  if parts.length < 2 then
    return ⟨502, headers, [], some "Cannot parse FastCGI Response".toList⟩
  let headerParts := Split (← index parts 0) "\n".toList
  let body ← index parts 1
  let mut status : Int := 200
  if HasPrefix (← index headerParts 0) "Status:".toList then
    let lineParts := SplitN (← index headerParts 0) " ".toList 3
    status := (Atoi (← index lineParts 1)).1
  return ⟨status, headerLoop headers headerParts, body, none⟩


/-! ## package `path/filepath` (Unix) and `os` -/

/-- Model of `os.IsPathSeparator` on Unix. -/
def IsPathSeparator (c : Char) : Bool := c = '/'

/-- Model of `filepath.FromSlash`: the identity where the separator is `/`. -/
def FromSlash (path : Str) : Str := path

/-- Loop of `filepath.Ext`, reading the path from its end: `acc` is the text
already passed. -/
def extLoop : Str → Str → Str
  | [], _ => []
  | c :: rest, acc =>
    if IsPathSeparator c then []
    else if c = '.' then c :: acc
    else extLoop rest (c :: acc)

/-- Model of `filepath.Ext`: the suffix that starts at the last dot of the
last element of the path, empty when there is none. -/
def Ext (path : Str) : Str := extLoop path.reverse []

/-- One element of the path handed to `filepath.Clean`; `stack` holds the
elements written so far. -/
def cleanStep (rooted : Bool) (stack : List Str) (elem : Str) : List Str :=
  if elem = [] ∨ elem = ".".toList then stack
  else if elem = "..".toList then
    match stack.getLast? with
    | some top =>
      if top ≠ "..".toList then stack.dropLast
      else if rooted then stack else stack ++ [elem]
    | none => if rooted then stack else [elem]
  else stack ++ [elem]

/-- Model of `filepath.Clean` on Unix, element by element: empty and `.`
elements are dropped, `..` removes the element before it (or is dropped at the
root), and the empty result is `.`. -/
def Clean (path : Str) : Str :=
  if path = [] then ".".toList
  else
    let rooted := path.head? = some '/'
    let stack := (path.splitOn '/').foldl (cleanStep rooted) []
    let out := (if rooted then "/".toList else []) ++ "/".toList.intercalate stack
    if out = [] then ".".toList else out

/-- Model of `filepath.Join`: the elements from the first non-empty one on,
joined with the separator and cleaned; the empty string when all are empty. -/
def filepathJoin : List Str → Str
  | [] => []
  | e :: rest =>
    if e ≠ [] then Clean ("/".toList.intercalate (e :: rest)) else filepathJoin rest

/-- The attribute of `os.FileInfo` that the handler reads. -/
structure FileInfo where
  IsDir : Bool
  deriving DecidableEq, Repr

/-- The file system seen through `os.Stat`: `none` where it returns an
error. -/
abbrev FileSystem := Str → Option FileInfo

/-! ## Configuration and requests -/

/-- The `CgiHandler` struct, cgiserver.go lines 19-28. -/
structure CgiHandler where
  Root : Str
  DefaultApp : Str
  UseLangMap : Bool
  LangMap : GoMap Str
  FcgiPort : Int
  ServeFcgi : Bool
  FcgiUnix : Str
  deriving DecidableEq, Repr

/-- The fields of `url.URL` that the handler reads. -/
structure URL where
  Path : Str
  RawQuery : Str
  deriving DecidableEq, Repr

/-- The fields of `http.Request` that the handler reads.  `Header` is listed
in the order in which `range r.Header` visits it. -/
structure Request where
  Method : Str
  URL : URL
  Header : GoMap (List Str)
  ContentLength : Int
  RemoteAddr : Str
  Host : Str
  Body : Str
  deriving DecidableEq, Repr

/-- Two-value map read `v, ok := m[k]`; `v` is the empty string when the key
is absent. -/
def GoMap.lookup (m : GoMap Str) (k : Str) : Str × Bool :=
  match m.get k with
  | some v => (v, true)
  | none => ([], false)

/-- Model of `http.Header.Get` for a key in canonical form: the first value
of the key, the empty string when there is none. -/
def HeaderGet (hdr : GoMap (List Str)) (key : Str) : Str :=
  match hdr.get key with
  | some (v :: _) => v
  | _ => []

/-- Model of `fmt.Sprint` on an integer. -/
def Sprint (i : Int) : Str := (toString i).toList

/-! ## The FastCGI environment -/

/-- `upperCaseAndUnderscore`, cgiserver.go lines 201-215. -/
def upperCaseAndUnderscore (r : Char) : Char :=
  if 'a' ≤ r ∧ r ≤ 'z' then Char.ofNat (r.toNat - ('a'.toNat - 'A'.toNat))
  else if r = '-' then '_'
  else if r = '=' then '_'
  else r

/-- Model of `strings.Map` for a mapping that never drops a character. -/
def stringsMap (f : Char → Char) (s : Str) : Str := s.map f

/-- Body of the `for k, v := range r.Header` loop of `FcgiHandler`,
cgiserver.go lines 124-135. -/
def headerEnvStep (env : GoMap Str) (kv : Str × List Str) : GoMap Str :=
  let k := stringsMap upperCaseAndUnderscore kv.1
  if k = "PROXY".toList then env
  else
    let joinStr := if k = "COOKIE".toList then "; ".toList else ", ".toList
    env.set ("HTTP_".toList ++ k) (Join kv.2 joinStr)

/-- The environment that `FcgiHandler` builds and sends, cgiserver.go lines
101-135. -/
def fcgiEnv (h : CgiHandler) (r : Request) : GoMap Str :=
  let scriptName := r.URL.Path
  let filename := filepathJoin [h.Root, scriptName]
  let env : GoMap Str := []
  let env := env.set "REQUEST_METHOD".toList r.Method
  let env := env.set "SCRIPT_FILENAME".toList filename
  let env := env.set "SCRIPT_NAME".toList scriptName
  let env := env.set "SERVER_SOFTWARE".toList "go / fcgiclient ".toList
  let env := env.set "REMOTE_ADDR".toList r.RemoteAddr
  let env := env.set "SERVER_PROTOCOL".toList "HTTP/1.1".toList
  let env := env.set "PATH_INFO".toList r.URL.Path
  let env := env.set "DOCUMENT_ROOT".toList h.Root
  let env := env.set "QUERY_STRING".toList r.URL.RawQuery
  let env := env.set "REQUEST_URI".toList (r.URL.Path ++ "?".toList ++ r.URL.RawQuery)
  let env := env.set "HTTP_HOST".toList r.Host
  let env :=
    if r.ContentLength > 0 then env.set "CONTENT_LENGTH".toList (Sprint r.ContentLength)
    else env
  let ctype := HeaderGet r.Header "Content-Type".toList
  let env := if ctype ≠ [] then env.set "CONTENT_TYPE".toList ctype else env
  r.Header.foldl headerEnvStep env

/-! ## The dispatcher -/

/-- The fields of `cgi.Handler` that `ServeHTTP` fills in. -/
structure CgiExec where
  Path : Str
  Root : Str
  Dir : Str
  Args : List Str
  Env : List Str
  deriving DecidableEq, Repr

/-- What `ServeHTTP` hands the request to. -/
inductive Action where
  /-- Local execution, `cgih.ServeHTTP(w, r)`. -/
  | localCGI (cgih : CgiExec)
  /-- Remote execution, `h.FcgiHandler(w, r)`, with the environment it sends. -/
  | fcgi (env : GoMap Str)
  /-- Static serving, `http.ServeFile(w, r, file)`. -/
  | serveFile (file : Str)
  deriving DecidableEq, Repr

/-- The variables of `ServeHTTP` after target resolution, cgiserver.go lines
36-53; `f` is the result of `os.Stat` on the requested file. -/
structure Resolved where
  file : Str
  bin : Str
  isCGI : Bool
  f : Option FileInfo
  deriving DecidableEq, Repr

/-- The requested file of `ServeHTTP`: the path with one trailing separator
removed, cgiserver.go lines 38-41. -/
def requestFile (r : Request) : Str :=
  let file := FromSlash r.URL.Path
  match file.getLast? with
  | some c => if IsPathSeparator c then file.dropLast else file
  | none => file

/-- Target resolution of `ServeHTTP`, cgiserver.go lines 36-53. -/
def resolve (h : CgiHandler) (fs : FileSystem) (r : Request) : Resolved :=
  let file := requestFile r
  let ext := Ext file
  let (bin, isCGI) := h.LangMap.lookup ext
  let file := filepathJoin [h.Root, file]
  let f := fs file
  if f = none ∨ f.any (·.IsDir) then
    let file := if h.DefaultApp.length > 0 then h.DefaultApp else file
    let ext := Ext file
    let (bin, isCGI) := h.LangMap.lookup ext
    ⟨file, bin, isCGI, f⟩
  else ⟨file, bin, isCGI, f⟩

/-- `(*CgiHandler).ServeHTTP`, cgiserver.go lines 35-90. -/
def ServeHTTP (h : CgiHandler) (fs : FileSystem) (r : Request) : Action :=
  let path := r.URL.Path
  let t := resolve h fs r
  if t.isCGI then
    if ¬ h.ServeFcgi then
      if h.UseLangMap then
        .localCGI
          { Path := t.bin, Root := [], Dir := h.Root, Args := [t.file],
            Env := ["SCRIPT_FILENAME=".toList ++ t.file, "SCRIPT_NAME=".toList ++ path,
              "DOCUMENT_ROOT=".toList ++ h.Root] }
      else .localCGI { Path := t.file, Root := h.Root, Dir := [], Args := [], Env := [] }
    else .fcgi (fcgiEnv h r)
  else
    if t.f.any (·.IsDir) ∨ t.file = [] then
      let tmp := filepathJoin [t.file, "index.html".toList]
      if (fs tmp).isSome then .serveFile tmp else .serveFile t.file
    else .serveFile t.file

/-- Equality of results and panics is decidable. -/
instance {ε α : Type} [DecidableEq ε] [DecidableEq α] : DecidableEq (Except ε α)
  | .ok a, .ok b =>
    if h : a = b then isTrue (by rw [h]) else isFalse (by intro e; cases e; exact h rfl)
  | .error a, .error b =>
    if h : a = b then isTrue (by rw [h]) else isFalse (by intro e; cases e; exact h rfl)
  | .ok _, .error _ => isFalse (by intro e; cases e)
  | .error _, .ok _ => isFalse (by intro e; cases e)


/-! ## Vocabulary of the specification -/

/-- The decimal digits of a natural number, as `strconv.Itoa` and `fmt` print
them. -/
def decimal (n : Nat) : Str := Nat.toDigits 10 n

/-- The text of a header line before its first colon (the whole line when it
has none). -/
def beforeColon (line : Str) : Str := line.takeWhile (· ≠ ':')

/-- The text of a header line after its first colon. -/
def afterColon (line : Str) : Str := (line.dropWhile (· ≠ ':')).drop 1

/-- The line `name: value` of a header. -/
def headerLine (p : Str × Str) : Str := p.1 ++ ": ".toList ++ p.2

/-- The header block of a response: the line `Status: n reason`, then one line
for each header, joined with LF. -/
def serialize (n : Nat) (reason : Str) (hdrs : List (Str × Str)) : Str :=
  "\n".toList.intercalate
    (("Status: ".toList ++ decimal n ++ ' ' :: reason) :: hdrs.map headerLine)

/-- The header that a line sets under the name `k`: the line has a colon, the
name `k` before it, and `k` is not `Status`. -/
def setsHeader (k : Str) (line : Str) : Bool :=
  decide (':' ∈ line ∧ beforeColon line = k ∧ k ≠ "Status".toList)

/-! ## Example configurations -/

/-- A file system with the directory `/www/app` and the two scripts
`/www/index.php` and `/www/app.pl`. -/
def exampleFS : FileSystem := fun p =>
  if p = "/www/app".toList then some ⟨true⟩
  else if p = "/www/index.php".toList ∨ p = "/www/app.pl".toList then some ⟨false⟩
  else none

/-- A handler in FastCGI mode with root `/www`, the default application
`/www/index.php` and an interpreter for `.php`. -/
def phpHandler : CgiHandler :=
  { Root := "/www".toList, DefaultApp := "/www/index.php".toList, UseLangMap := true,
    LangMap := [(".php".toList, "php-cgi".toList)], FcgiPort := 3333, ServeFcgi := true,
    FcgiUnix := [] }

/-- A handler with root `/www`, the default application `/www/app.pl` and
interpreters for `.php` and `.pl`. -/
def perlHandler : CgiHandler :=
  { Root := "/www".toList, DefaultApp := "/www/app.pl".toList, UseLangMap := true,
    LangMap := [(".php".toList, "php-cgi".toList), (".pl".toList, "perl".toList)],
    FcgiPort := 3333, ServeFcgi := false, FcgiUnix := [] }

/-- A `GET` request for `path` without query, headers or body. -/
def getRequest (path : Str) : Request :=
  { Method := "GET".toList, URL := ⟨path, []⟩, Header := [], ContentLength := 0,
    RemoteAddr := "192.0.2.1:4711".toList, Host := "example.org".toList, Body := [] }

/-! ## Vocabulary for the environment and the response -/

/-- The canonical form of a header name, as the header loop of `FcgiHandler`
computes it (cgiserver.go line 125). -/
def canon (s : Str) : Str := stringsMap upperCaseAndUnderscore s

/-- The entries that `FcgiHandler` sets before it visits the request headers,
cgiserver.go lines 103-122: the value of `env` when the header loop of
`fcgiEnv` starts. -/
def baseEnv (h : CgiHandler) (r : Request) : GoMap Str :=
  let scriptName := r.URL.Path
  let filename := filepathJoin [h.Root, scriptName]
  let env : GoMap Str := []
  let env := env.set "REQUEST_METHOD".toList r.Method
  let env := env.set "SCRIPT_FILENAME".toList filename
  let env := env.set "SCRIPT_NAME".toList scriptName
  let env := env.set "SERVER_SOFTWARE".toList "go / fcgiclient ".toList
  let env := env.set "REMOTE_ADDR".toList r.RemoteAddr
  let env := env.set "SERVER_PROTOCOL".toList "HTTP/1.1".toList
  let env := env.set "PATH_INFO".toList r.URL.Path
  let env := env.set "DOCUMENT_ROOT".toList h.Root
  let env := env.set "QUERY_STRING".toList r.URL.RawQuery
  let env := env.set "REQUEST_URI".toList (r.URL.Path ++ "?".toList ++ r.URL.RawQuery)
  let env := env.set "HTTP_HOST".toList r.Host
  let env :=
    if r.ContentLength > 0 then env.set "CONTENT_LENGTH".toList (Sprint r.ContentLength)
    else env
  let ctype := HeaderGet r.Header "Content-Type".toList
  if ctype ≠ [] then env.set "CONTENT_TYPE".toList ctype else env

/-- The keys that `FcgiHandler` sets itself, whatever the request headers. -/
def fixedKeys : List Str :=
  ["REQUEST_METHOD".toList, "SCRIPT_FILENAME".toList, "SCRIPT_NAME".toList,
    "SERVER_SOFTWARE".toList, "REMOTE_ADDR".toList, "SERVER_PROTOCOL".toList,
    "PATH_INFO".toList, "DOCUMENT_ROOT".toList, "QUERY_STRING".toList,
    "REQUEST_URI".toList, "HTTP_HOST".toList, "CONTENT_LENGTH".toList,
    "CONTENT_TYPE".toList]

/-- The header `kv` writes the key `key` of the environment: its canonical
name is not `PROXY` and `key` is `HTTP_` followed by that name. -/
def setsEnv (key : Str) (kv : Str × List Str) : Bool :=
  decide (canon kv.1 ≠ "PROXY".toList ∧ "HTTP_".toList ++ canon kv.1 = key)

/-- The values of a header joined for the environment: with `; ` for the
canonical name `COOKIE`, with `, ` for any other. -/
def envValue (kv : Str × List Str) : Str :=
  Join kv.2 (if canon kv.1 = "COOKIE".toList then "; ".toList else ", ".toList)

/-- Lowercase ASCII letter. -/
def isLowerAscii (c : Char) : Prop := 'a' ≤ c ∧ c ≤ 'z'

/-- Uppercase ASCII letter, digit or underscore. -/
def isUpperDigitUnderscore (c : Char) : Prop :=
  ('A' ≤ c ∧ c ≤ 'Z') ∨ ('0' ≤ c ∧ c ≤ '9') ∨ c = '_'

/-- ASCII letter, digit, or one of `-`, `_`, `=`. -/
def isPlainNameChar (c : Char) : Prop :=
  ('a' ≤ c ∧ c ≤ 'z') ∨ ('A' ≤ c ∧ c ≤ 'Z') ∨ ('0' ≤ c ∧ c ≤ '9') ∨
    c = '-' ∨ c = '_' ∨ c = '='

/-- What `FcgiHandler` writes to the `http.ResponseWriter`: the header set
with `w.Header().Set`, the code given to `w.WriteHeader` and the body. -/
structure Response where
  header : GoMap (List Str)
  status : Int
  body : Str
  deriving DecidableEq, Repr

/-- `(*CgiHandler).FcgiHandler`, cgiserver.go lines 91-163.  `transport` is the
reply of `fcgi.Request` to the environment and the request parameters, and
`canonicalKey` the key under which `http.Header.Set` stores a name
(`textproto.CanonicalMIMEHeaderKey`); the error that `ParseFastCgiResponse`
returns is assigned and not read. -/
def FcgiHandler (h : CgiHandler) (transport : GoMap Str → Str → Str)
    (canonicalKey : Str → Str) (r : Request) : Except Panic Response := do
  let reqParams := if r.Method = "POST".toList then r.Body else []
  let env := fcgiEnv h r
  let content := transport env reqParams
  let res ← ParseFastCgiResponse content
  let header : GoMap (List Str) :=
    res.headers.foldl (fun w kv => w.set (canonicalKey kv.1) [kv.2]) []
  return ⟨header, res.status, res.body⟩

/-- A file system with the directory `/www/app` that contains `index.html`,
and the script `/www/index.php`. -/
def indexFS : FileSystem := fun p =>
  if p = "/www/app".toList then some ⟨true⟩
  else if p = "/www/app/index.html".toList ∨ p = "/www/index.php".toList then some ⟨false⟩
  else none

/-- A handler in local mode with root `/www`, an interpreter for `.php` and
no default application. -/
def plainHandler : CgiHandler :=
  { Root := "/www".toList, DefaultApp := [], UseLangMap := true,
    LangMap := [(".php".toList, "php-cgi".toList)], FcgiPort := 3333, ServeFcgi := false,
    FcgiUnix := [] }

/-- A file system in which the root `/www/site.php` is a directory that
contains `index.html`. -/
def dottedRootFS : FileSystem := fun p =>
  if p = "/www/site.php".toList then some ⟨true⟩
  else if p = "/www/site.php/index.html".toList then some ⟨false⟩
  else none

/-- A handler in local mode with root `/www/site.php`, an interpreter for
`.php` and no default application. -/
def dottedRootHandler : CgiHandler :=
  { Root := "/www/site.php".toList, DefaultApp := [], UseLangMap := true,
    LangMap := [(".php".toList, "php-cgi".toList)], FcgiPort := 3333, ServeFcgi := false,
    FcgiUnix := [] }

/-! ## Index and splitting -/

theorem Index_eq_none_iff (sep s : Str) : Index s sep = none ↔ ¬ sep <:+: s := by
  induction s with
  | nil =>
    by_cases h : sep = [] <;> simp [Index, h]
  | cons c t ih =>
    simp only [Index]
    by_cases h : sep.isPrefixOf (c :: t) = true
    · have hp : sep <+: c :: t := List.isPrefixOf_iff_prefix.1 h
      simp [h, List.infix_cons_iff, hp]
    · have hp : ¬ sep <+: c :: t := fun hp => h (List.isPrefixOf_iff_prefix.2 hp)
      simp [h, List.infix_cons_iff, hp, ih]

theorem Index_cons (c : Char) (t sep : Str) :
    Index (c :: t) sep =
      if sep.isPrefixOf (c :: t) then some 0 else (Index t sep).map Nat.succ := by
  rw [Index]

theorem Index_of_prefix (sep s : Str) (h : sep <+: s) : Index s sep = some 0 := by
  have hp : sep.isPrefixOf s = true := List.isPrefixOf_iff_prefix.2 h
  cases s with
  | nil => simp [Index, hp]
  | cons x xs => simp [Index, hp]

theorem Index_first (sep hb body : Str) (h : ¬ sep <:+: hb ++ sep.dropLast) :
    Index (hb ++ sep ++ body) sep = some hb.length := by
  induction hb with
  | nil =>
    simpa using Index_of_prefix sep (sep ++ body) (List.prefix_append _ _)
  | cons c t ih =>
    have hne : sep ≠ [] := by
      rintro rfl
      exact h List.nil_infix
    have ht : ¬ sep <:+: t ++ sep.dropLast := fun hi =>
      h (hi.trans (List.suffix_cons c _).isInfix)
    have hp : ¬ sep <+: c :: (t ++ sep ++ body) := by
      intro hp
      apply h
      have h1 : c :: t ++ sep.dropLast <+: c :: (t ++ sep ++ body) := by
        refine ⟨sep.getLast hne :: body, ?_⟩
        conv_rhs => rw [← List.dropLast_append_getLast hne]
        simp
      have hl : sep.length ≤ (c :: t ++ sep.dropLast).length := by
        simp
        omega
      exact (List.prefix_of_prefix_length_le hp h1 hl).isInfix
    have hp2 : sep.isPrefixOf (c :: (t ++ sep ++ body)) = false := by
      rw [Bool.eq_false_iff]
      intro hq
      exact hp (List.isPrefixOf_iff_prefix.1 hq)
    rw [List.cons_append, List.cons_append, Index_cons, hp2, ih ht]
    rfl

theorem Index_some_decomp (sep : Str) (hne : sep ≠ []) :
    ∀ (s : Str) (m : Nat), Index s sep = some m →
      s = s.take m ++ sep ++ s.drop (m + sep.length) ∧ ¬ sep <:+: s.take m ++ sep.dropLast := by
  have hshort : ¬ sep <:+: sep.dropLast := by
    intro hi
    have := hi.length_le
    have hl : 0 < sep.length := List.length_pos.2 hne
    simp at this
    omega
  intro s
  induction s with
  | nil =>
    intro m hm
    simp [Index, hne] at hm
  | cons c t ih =>
    intro m hm
    rw [Index_cons] at hm
    by_cases hp : sep.isPrefixOf (c :: t) = true
    · simp only [hp, if_true, Option.some.injEq] at hm
      subst hm
      obtain ⟨r, hr⟩ := List.isPrefixOf_iff_prefix.1 hp
      refine ⟨?_, by simpa using hshort⟩
      rw [← hr]
      simp
    · simp only [hp, Bool.false_eq_true, if_false, Option.map_eq_some'] at hm
      obtain ⟨m', hm', rfl⟩ := hm
      obtain ⟨h1, h2⟩ := ih m' hm'
      refine ⟨?_, ?_⟩
      · simp only [List.take_succ_cons, List.cons_append, Nat.succ_add, List.drop_succ_cons]
        rw [← h1]
      · simp only [List.take_succ_cons, List.cons_append]
        rw [List.infix_cons_iff]
        rintro (hq | hq)
        · apply hp
          apply List.isPrefixOf_iff_prefix.2
          refine hq.trans ?_
          refine ⟨sep.getLast hne :: t.drop (m' + sep.length), ?_⟩
          calc c :: (t.take m' ++ sep.dropLast) ++ sep.getLast hne :: t.drop (m' + sep.length)
              = c :: (t.take m' ++ (sep.dropLast ++ [sep.getLast hne])
                  ++ t.drop (m' + sep.length)) := by simp
            _ = c :: (t.take m' ++ sep ++ t.drop (m' + sep.length)) := by
                rw [List.dropLast_append_getLast]
            _ = c :: t := by rw [← h1]
        · exact h2 hq

theorem singleton_infix_iff_mem (c : Char) (s : Str) : [c] <:+: s ↔ c ∈ s := by
  constructor
  · rintro ⟨a, b, rfl⟩
    simp
  · intro h
    obtain ⟨a, b, rfl⟩ := List.append_of_mem h
    exact ⟨a, b, by simp⟩

theorem Index_singleton_not_mem (c : Char) (s : Str) (h : c ∉ s) : Index s [c] = none := by
  rw [Index_eq_none_iff]
  intro hi
  exact h ((singleton_infix_iff_mem c s).1 hi)

theorem Index_singleton_first (c : Char) (a b : Str) (h : c ∉ a) :
    Index (a ++ c :: b) [c] = some a.length := by
  have := Index_first [c] a b (by simpa [singleton_infix_iff_mem] using h)
  simpa using this

theorem splitLoop_not_mem (c : Char) (k : Nat) (s : Str) (h : c ∉ s) :
    splitLoop [c] k s = [s] := by
  cases k with
  | zero => rfl
  | succ k => simp [splitLoop, Index_singleton_not_mem c s h]

theorem splitLoop_first (c : Char) (k : Nat) (a b : Str) (h : c ∉ a) :
    splitLoop [c] (k + 1) (a ++ c :: b) = a :: splitLoop [c] k b := by
  simp [splitLoop, Index_singleton_first c a b h]

theorem splitOn_not_mem (c : Char) (s : Str) (h : c ∉ s) : s.splitOn c = [s] := by
  refine List.splitOnP_eq_single _ _ ?_
  intro x hx hxc
  rw [beq_iff_eq] at hxc
  exact h (hxc ▸ hx)

theorem splitOn_first (c : Char) (a b : Str) (h : c ∉ a) :
    (a ++ c :: b).splitOn c = a :: b.splitOn c := by
  refine List.splitOnP_first _ _ ?_ c (by simp) b
  intro x hx hxc
  rw [beq_iff_eq] at hxc
  exact h (hxc ▸ hx)

theorem splitLoop_eq_splitOn (c : Char) :
    ∀ (k : Nat) (s : Str), s.count c ≤ k → splitLoop [c] k s = s.splitOn c := by
  intro k
  induction k with
  | zero =>
    intro s hs
    have hc : c ∉ s := by
      intro hm
      have := List.count_pos_iff.2 hm
      omega
    rw [splitLoop_not_mem c 0 s hc]
    exact (splitOn_not_mem c s hc).symm
  | succ k ih =>
    intro s hs
    by_cases hc : c ∈ s
    · obtain ⟨a, b, rfl, ha⟩ := List.eq_append_cons_of_mem hc
      rw [splitLoop_first c k a b ha]
      have hk : b.count c ≤ k := by
        have h0 : a.count c = 0 := List.count_eq_zero.2 ha
        simp [List.count_append, h0] at hs
        omega
      rw [ih b hk]
      exact (splitOn_first c a b ha).symm
    · rw [splitLoop_not_mem c (k + 1) s hc]
      exact (splitOn_not_mem c s hc).symm

theorem Split_eq_splitOn (c : Char) (s : Str) : Split s [c] = s.splitOn c := by
  have hC : Count s [c] = s.count c := rfl
  unfold Split
  rw [hC]
  apply splitLoop_eq_splitOn
  have := List.count_le_length c s
  omega

/-! ## Shape of `ParseFastCgiResponse` -/

theorem SplitN_two_of_none (s sep : Str) (h : Index s sep = none) : SplitN s sep 2 = [s] := by
  unfold SplitN
  simp only [OfNat.ofNat_ne_zero, if_false]
  generalize min 2 (s.length + 1) - 1 = k
  cases k <;> simp [splitLoop, h]

theorem SplitN_two_of_some (s sep : Str) (m : Nat) (hne : sep ≠ [])
    (h : Index s sep = some m) : SplitN s sep 2 = [s.take m, s.drop (m + sep.length)] := by
  cases s with
  | nil => simp [Index, hne] at h
  | cons c t =>
    unfold SplitN
    have hk : min 2 ((c :: t).length + 1) - 1 = 1 := by
      simp only [List.length_cons]
      omega
    simp only [OfNat.ofNat_ne_zero, if_false, hk]
    simp [splitLoop, h]

theorem index_zero_cons {α : Type} (x : α) (xs : List α) : index (x :: xs) 0 = .ok x := rfl

theorem index_one_cons {α : Type} (x y : α) (xs : List α) :
    index (x :: y :: xs) 1 = .ok y := rfl

theorem Parse_of_no_delim (content : Str) (h : ¬ "\r\n\r\n".toList <:+: content) :
    ParseFastCgiResponse content =
      .ok ⟨502, [], [], some "Cannot parse FastCGI Response".toList⟩ := by
  have hI := (Index_eq_none_iff "\r\n\r\n".toList content).2 h
  unfold ParseFastCgiResponse
  rw [SplitN_two_of_none _ _ hI]
  rfl

theorem Parse_of_delim (hb body line : Str) (rest : List Str)
    (h : ¬ "\r\n\r\n".toList <:+: hb ++ "\r\n\r".toList)
    (hl : hb.splitOn '\n' = line :: rest) :
    ParseFastCgiResponse (hb ++ "\r\n\r\n".toList ++ body) =
      if HasPrefix line "Status:".toList then
        match index (SplitN line " ".toList 3) 1 with
        | .ok x => .ok ⟨(Atoi x).1, headerLoop [] (line :: rest), body, none⟩
        | .error e => .error e
      else .ok ⟨200, headerLoop [] (line :: rest), body, none⟩ := by
  have hI := Index_first "\r\n\r\n".toList hb body h
  have hS := SplitN_two_of_some _ _ _ (by decide) hI
  have hS2 : Split hb "\n".toList = line :: rest := by
    rw [← hl]
    exact Split_eq_splitOn '\n' hb
  unfold ParseFastCgiResponse
  rw [hS]
  have hd : List.drop (hb.length + "\r\n\r\n".toList.length)
      (hb ++ ("\r\n\r\n".toList ++ body)) = body := by
    rw [← List.append_assoc, List.drop_append_eq_append_drop]
    simp
  simp only [List.take_left', List.append_assoc, hd, index_zero_cons, index_one_cons,
    List.length_cons, List.length_nil, bind, Except.bind, pure, Except.pure, hS2]
  rw [if_neg (by decide : ¬ (0 + 1 + 1 < 2))]
  by_cases hP : HasPrefix line "Status:".toList = true
  · rw [if_pos hP, if_pos hP]
    cases index (SplitN line " ".toList 3) 1 <;> rfl
  · rw [if_neg hP, if_neg hP]

/-! ## `strconv.Atoi` on decimal digits -/

theorem digitChar_spec (d : Nat) (h : d < 10) :
    ('0' ≤ Nat.digitChar d ∧ Nat.digitChar d ≤ '9') ∧
      (Nat.digitChar d).toNat - '0'.toNat = d := by
  interval_cases d <;> decide

theorem atoiFast_toDigitsCore :
    ∀ (fuel n : Nat) (ds : Str), n < fuel →
      atoiFast 0 (Nat.toDigitsCore 10 fuel n ds) = atoiFast n ds := by
  intro fuel
  induction fuel with
  | zero => intro n ds h; omega
  | succ fuel ih =>
    intro n ds h
    obtain ⟨hd, hv⟩ := digitChar_spec (n % 10) (Nat.mod_lt _ (by decide))
    by_cases h0 : n / 10 = 0
    · have hn : n % 10 = n := Nat.mod_eq_of_lt (by omega)
      simp only [Nat.toDigitsCore, h0, if_true]
      rw [atoiFast, if_pos hd, hv, hn]
      simp
    · simp only [Nat.toDigitsCore, h0, if_false]
      rw [ih (n / 10) _ (by omega), atoiFast, if_pos hd, hv]
      congr 1
      omega

theorem atoiFast_decimal (n : Nat) : atoiFast 0 (decimal n) = some n := by
  unfold decimal Nat.toDigits
  rw [atoiFast_toDigitsCore _ _ _ (Nat.lt_succ_self n)]
  rfl

theorem toDigitsCore_digits :
    ∀ (fuel n : Nat) (ds : Str),
      ∃ pre, Nat.toDigitsCore 10 fuel n ds = pre ++ ds ∧
        (0 < fuel → pre ≠ []) ∧ ∀ c ∈ pre, '0' ≤ c ∧ c ≤ '9' := by
  intro fuel
  induction fuel with
  | zero => intro n ds; exact ⟨[], rfl, fun h => absurd h (by decide), by simp⟩
  | succ fuel ih =>
    intro n ds
    obtain ⟨hd, _⟩ := digitChar_spec (n % 10) (Nat.mod_lt _ (by decide))
    by_cases h0 : n / 10 = 0
    · refine ⟨[Nat.digitChar (n % 10)], ?_, by simp, ?_⟩
      · simp [Nat.toDigitsCore, h0]
      · intro c hc
        rw [List.mem_singleton] at hc
        rw [hc]
        exact hd
    · obtain ⟨pre, hpre, _, hdig⟩ := ih (n / 10) (Nat.digitChar (n % 10) :: ds)
      refine ⟨pre ++ [Nat.digitChar (n % 10)], ?_, by simp, ?_⟩
      · simp [Nat.toDigitsCore, h0, hpre]
      · intro c hc
        rw [List.mem_append, List.mem_singleton] at hc
        rcases hc with hc | hc
        · exact hdig c hc
        · rw [hc]
          exact hd

theorem decimal_ne_nil (n : Nat) : decimal n ≠ [] := by
  obtain ⟨pre, hpre, hne, _⟩ := toDigitsCore_digits (n + 1) n []
  unfold decimal Nat.toDigits
  rw [hpre, List.append_nil]
  exact hne (Nat.succ_pos n)

theorem decimal_digits (n : Nat) : ∀ c ∈ decimal n, '0' ≤ c ∧ c ≤ '9' := by
  obtain ⟨pre, hpre, _, hdig⟩ := toDigitsCore_digits (n + 1) n []
  unfold decimal Nat.toDigits
  rw [hpre, List.append_nil]
  exact hdig

theorem atoiFast_ge : ∀ (s : Str) (a v : Nat), atoiFast a s = some v → a ≤ v := by
  intro s
  induction s with
  | nil =>
    intro a v h
    simp [atoiFast] at h
    omega
  | cons c cs ih =>
    intro a v h
    rw [atoiFast] at h
    split at h
    · have := ih _ _ h
      omega
    · cases h

theorem parseUintLoop_of_atoiFast :
    ∀ (s : Str) (a v : Nat), atoiFast a s = some v → v ≤ 2 ^ 64 - 1 →
      parseUintLoop a s = some (v, false) := by
  intro s
  induction s with
  | nil =>
    intro a v h _
    simp [atoiFast] at h
    simp [parseUintLoop, h]
  | cons c cs ih =>
    intro a v h hv
    rw [atoiFast] at h
    split at h
    · rename_i hd
      have hge := atoiFast_ge _ _ _ h
      rw [parseUintLoop, if_pos hd]
      have h1 : ¬ a ≥ (2 ^ 64 - 1) / 10 + 1 := by
        norm_num at hv ⊢
        omega
      have h2 : ¬ a * 10 + (c.toNat - '0'.toNat) > 2 ^ 64 - 1 := by
        omega
      rw [if_neg h1]
      simp only [h2, if_false]
      exact ih _ _ h hv
    · cases h

theorem Atoi_of_digits (s : Str) (v : Nat) (hne : s ≠ [])
    (hdig : ∀ c ∈ s, '0' ≤ c ∧ c ≤ '9') (hval : atoiFast 0 s = some v) (hv : v < 2 ^ 63) :
    Atoi s = ((v : Int), false) := by
  cases s with
  | nil => exact absurd rfl hne
  | cons c cs =>
    have hc := hdig c (List.mem_cons_self _ _)
    have hm : c ≠ '-' := by
      rintro rfl
      exact absurd hc.1 (by decide)
    have hp : c ≠ '+' := by
      rintro rfl
      exact absurd hc.1 (by decide)
    unfold Atoi
    split
    · simp [hm, hp, hval]
    · have hu : ParseUint (c :: cs) = some (v, false) := by
        unfold ParseUint
        rw [if_neg (List.cons_ne_nil _ _)]
        exact parseUintLoop_of_atoiFast _ _ _ hval (by omega)
      unfold ParseInt
      simp only [hm, hp, or_self, if_false, hu, intSize]
      have h3 : v < 9223372036854775808 := by
        norm_num at hv
        exact hv
      simp [h3]

theorem Atoi_decimal (n : Nat) (h : n < 2 ^ 63) : Atoi (decimal n) = ((n : Int), false) :=
  Atoi_of_digits _ _ (decimal_ne_nil n) (decimal_digits n) (atoiFast_decimal n) h

/-! ## Header lines -/

theorem takeWhile_first (c : Char) (a b : Str) (h : c ∉ a) :
    (a ++ c :: b).takeWhile (· ≠ c) = a := by
  induction a with
  | nil => simp
  | cons x t ih =>
    have hx : x ≠ c := fun e => h (e ▸ List.mem_cons_self _ _)
    have ht : c ∉ t := fun hm => h (List.mem_cons_of_mem _ hm)
    simp only [List.cons_append, List.takeWhile_cons, ne_eq, hx, not_false_eq_true,
      decide_True, if_true]
    rw [ih ht]

theorem dropWhile_first (c : Char) (a b : Str) (h : c ∉ a) :
    (a ++ c :: b).dropWhile (· ≠ c) = c :: b := by
  induction a with
  | nil => simp
  | cons x t ih =>
    have hx : x ≠ c := fun e => h (e ▸ List.mem_cons_self _ _)
    have ht : c ∉ t := fun hm => h (List.mem_cons_of_mem _ hm)
    simp only [List.cons_append, List.dropWhile_cons, ne_eq, hx, not_false_eq_true,
      decide_True, if_true]
    exact ih ht

theorem takeWhile_not_mem (c : Char) (s : Str) (h : c ∉ s) : s.takeWhile (· ≠ c) = s := by
  rw [List.takeWhile_eq_self_iff]
  intro x hx
  simpa using fun e : x = c => h (e ▸ hx)

theorem splitOn_head (c : Char) (s : Str) :
    ∃ rest, s.splitOn c = s.takeWhile (· ≠ c) :: rest := by
  by_cases hc : c ∈ s
  · obtain ⟨a, b, rfl, ha⟩ := List.eq_append_cons_of_mem hc
    exact ⟨b.splitOn c, by rw [splitOn_first c a b ha, takeWhile_first c a b ha]⟩
  · exact ⟨[], by rw [splitOn_not_mem c s hc, takeWhile_not_mem c s hc]⟩

theorem SplitN_colon_mem (line : Str) (h : ':' ∈ line) :
    SplitN line ":".toList 2 = [beforeColon line, afterColon line] := by
  obtain ⟨a, b, rfl, ha⟩ := List.eq_append_cons_of_mem h
  have hS := SplitN_two_of_some _ _ a.length (by decide) (Index_singleton_first ':' a b ha)
  rw [show ":".toList = [':'] from rfl, hS]
  unfold beforeColon afterColon
  rw [takeWhile_first ':' a b ha, dropWhile_first ':' a b ha]
  simp

theorem SplitN_colon_not_mem (line : Str) (h : ':' ∉ line) :
    SplitN line ":".toList 2 = [line] :=
  SplitN_two_of_none line [':'] (Index_singleton_not_mem ':' line h)

theorem headerLoop_cons_mem (headers : GoMap Str) (line : Str) (rest : List Str)
    (h : ':' ∈ line) :
    headerLoop headers (line :: rest) =
      if beforeColon line = "Status".toList then headerLoop headers rest
      else headerLoop (headers.set (beforeColon line) (TrimSpace (afterColon line))) rest := by
  rw [headerLoop, SplitN_colon_mem line h]

theorem headerLoop_cons_not_mem (headers : GoMap Str) (line : Str) (rest : List Str)
    (h : ':' ∉ line) : headerLoop headers (line :: rest) = headerLoop headers rest := by
  rw [headerLoop, SplitN_colon_not_mem line h]

theorem GoMap.get_set {V : Type} (m : GoMap V) (k k' : Str) (v : V) :
    (m.set k v).get k' = if k = k' then some v else m.get k' := by
  induction m with
  | nil => simp [GoMap.set, GoMap.get]
  | cons p rest ih =>
    obtain ⟨a, b⟩ := p
    by_cases h1 : a = k
    · subst h1
      by_cases h2 : a = k' <;> simp [GoMap.set, GoMap.get, h2]
    · by_cases h2 : a = k'
      · subst h2
        simp [GoMap.set, GoMap.get, h1, Ne.symm h1]
      · simp [GoMap.set, GoMap.get, h1, h2, ih]

theorem GoMap.mem_set {V : Type} (m : GoMap V) (k : Str) (v : V) (p : Str × V)
    (h : p ∈ m.set k v) : p ∈ m ∨ p = (k, v) := by
  induction m with
  | nil => simpa [GoMap.set] using h
  | cons q rest ih =>
    obtain ⟨a, b⟩ := q
    by_cases h1 : a = k
    · simp only [GoMap.set, h1, if_true, List.mem_cons] at h
      rcases h with h | h
      · exact Or.inr h
      · exact Or.inl (List.mem_cons_of_mem _ h)
    · simp only [GoMap.set, h1, if_false, List.mem_cons] at h
      rcases h with h | h
      · exact Or.inl (h ▸ List.mem_cons_self _ _)
      · rcases ih h with h | h
        · exact Or.inl (List.mem_cons_of_mem _ h)
        · exact Or.inr h

theorem GoMap.set_new {V : Type} (m : GoMap V) (k : Str) (v : V)
    (h : ∀ p ∈ m, p.1 ≠ k) : m.set k v = m ++ [(k, v)] := by
  induction m with
  | nil => rfl
  | cons q rest ih =>
    obtain ⟨a, b⟩ := q
    have h1 : a ≠ k := h (a, b) (List.mem_cons_self _ _)
    have h2 : ∀ p ∈ rest, p.1 ≠ k := fun p hp => h p (List.mem_cons_of_mem _ hp)
    simp [GoMap.set, h1, ih h2]

theorem headerLoop_get (k : Str) :
    ∀ (lines : List Str) (headers : GoMap Str),
      (headerLoop headers lines).get k =
        match lines.reverse.find? (setsHeader k) with
        | some l => some (TrimSpace (afterColon l))
        | none => headers.get k := by
  intro lines
  induction lines with
  | nil => intro headers; rfl
  | cons line rest ih =>
    intro headers
    rw [List.reverse_cons, List.find?_append]
    by_cases hc : ':' ∈ line
    · rw [headerLoop_cons_mem _ _ _ hc]
      by_cases hs : beforeColon line = "Status".toList
      · rw [if_pos hs, ih]
        have : setsHeader k line = false := by
          simp only [setsHeader, decide_eq_false_iff_not]
          rintro ⟨_, h1, h2⟩
          exact h2 (h1 ▸ hs)
        cases rest.reverse.find? (setsHeader k) <;> simp [List.find?, this]
      · rw [if_neg hs, ih, GoMap.get_set]
        by_cases hk : beforeColon line = k
        · have : setsHeader k line = true := by
            simp only [setsHeader, decide_eq_true_eq]
            exact ⟨hc, hk, fun e => hs (hk.trans e)⟩
          cases rest.reverse.find? (setsHeader k) <;> simp [List.find?, this, hk]
        · have : setsHeader k line = false := by
            simp only [setsHeader, decide_eq_false_iff_not]
            rintro ⟨_, h1, _⟩
            exact hk h1
          cases rest.reverse.find? (setsHeader k) <;> simp [List.find?, this, hk]
    · rw [headerLoop_cons_not_mem _ _ _ hc, ih]
      have : setsHeader k line = false := by
        simp only [setsHeader, decide_eq_false_iff_not]
        rintro ⟨h1, _⟩
        exact hc h1
      cases rest.reverse.find? (setsHeader k) <;> simp [List.find?, this]

/-! ## Status line -/

theorem SplitN_status_line (digits tail : Str) (hd : ' ' ∉ digits)
    (ht : tail = [] ∨ ∃ reason, tail = ' ' :: reason) :
    index (SplitN ("Status: ".toList ++ digits ++ tail) " ".toList 3) 1 = .ok digits := by
  have hk : min 3 (("Status: ".toList ++ digits ++ tail).length + 1) - 1 = 1 + 1 := by
    simp only [List.length_append]
    have : "Status: ".toList.length = 8 := rfl
    omega
  have hs : "Status: ".toList ++ digits ++ tail = "Status:".toList ++ ' ' :: (digits ++ tail) := by
    simp
  unfold SplitN
  rw [if_neg (by decide), hk, hs, show " ".toList = [' '] from rfl,
    splitLoop_first ' ' 1 _ _ (by decide)]
  rcases ht with rfl | ⟨reason, rfl⟩
  · rw [List.append_nil, splitLoop_not_mem ' ' 1 digits hd]
    rfl
  · rw [splitLoop_first ' ' 0 digits reason hd]
    rfl

theorem decimal_no_space (n : Nat) : ' ' ∉ decimal n := fun h =>
  absurd (decimal_digits n ' ' h).1 (by decide)

theorem HasPrefix_status (rest : Str) :
    HasPrefix ("Status: ".toList ++ rest) "Status:".toList = true := by
  unfold HasPrefix
  rw [List.isPrefixOf_iff_prefix]
  exact ⟨' ' :: rest, rfl⟩

theorem Parse_status_line (n : Nat) (hb body tail : Str) (hn : n < 2 ^ 63)
    (h : ¬ "\r\n\r\n".toList <:+: hb ++ "\r\n\r".toList)
    (hl : hb.takeWhile (· ≠ '\n') = "Status: ".toList ++ decimal n ++ tail)
    (ht : tail = [] ∨ ∃ reason, tail = ' ' :: reason) :
    ParseFastCgiResponse (hb ++ "\r\n\r\n".toList ++ body) =
      .ok ⟨(n : Int), headerLoop [] (hb.splitOn '\n'), body, none⟩ := by
  obtain ⟨rest, hrest⟩ := splitOn_head '\n' hb
  rw [hl] at hrest
  rw [Parse_of_delim hb body _ rest h hrest, List.append_assoc, if_pos (HasPrefix_status _),
    ← List.append_assoc, SplitN_status_line _ _ (decimal_no_space n) ht, hrest]
  simp only [Atoi_decimal n hn]

/-! ## Serialised header blocks -/

theorem not_delim_infix_of_no_cr (hb : Str) (h : '\r' ∉ hb) :
    ¬ "\r\n\r\n".toList <:+: hb ++ "\r\n\r".toList := by
  induction hb with
  | nil => decide
  | cons c t ih =>
    have hc : c ≠ '\r' := fun e => h (e ▸ List.mem_cons_self _ _)
    have ht : '\r' ∉ t := fun hm => h (List.mem_cons_of_mem _ hm)
    rw [List.cons_append, List.infix_cons_iff]
    rintro (hp | hi)
    · obtain ⟨r, hr⟩ := hp
      have : '\r' = c := by
        have h0 := congrArg List.head? hr
        simpa using h0
      exact hc this.symm
    · exact ih ht hi

theorem intercalate_cons_cons (sep l l2 : Str) (ls : List Str) :
    sep.intercalate (l :: l2 :: ls) = l ++ sep ++ sep.intercalate (l2 :: ls) := by
  simp [List.intercalate, List.intersperse]

theorem mem_intercalate (sep : Str) (c : Char) :
    ∀ (ls : List Str), c ∈ sep.intercalate ls → c ∈ sep ∨ ∃ l ∈ ls, c ∈ l := by
  intro ls
  induction ls with
  | nil => intro h; simp [List.intercalate] at h
  | cons l rest ih =>
    cases rest with
    | nil =>
      intro h
      simp [List.intercalate] at h
      exact Or.inr ⟨l, List.mem_cons_self _ _, h⟩
    | cons l2 ls =>
      intro h
      rw [intercalate_cons_cons, List.mem_append, List.mem_append] at h
      rcases h with (h | h) | h
      · exact Or.inr ⟨l, List.mem_cons_self _ _, h⟩
      · exact Or.inl h
      · rcases ih h with h | ⟨x, hx, hc⟩
        · exact Or.inl h
        · exact Or.inr ⟨x, List.mem_cons_of_mem _ hx, hc⟩

theorem TrimSpace_space_cons (v : Str) (hhead : ∀ c, v.head? = some c → isSpace c = false)
    (hlast : ∀ c, v.getLast? = some c → isSpace c = false) :
    TrimSpace (' ' :: v) = v := by
  have h1 : (' ' :: v).dropWhile isSpace = v := by
    cases v with
    | nil => rfl
    | cons x xs =>
      have hx : isSpace x = false := hhead x rfl
      have hsp : isSpace ' ' = true := by decide
      simp [List.dropWhile_cons, hx, hsp]
  unfold TrimSpace
  rw [h1, List.rdropWhile_eq_self_iff]
  intro hl
  have := hlast _ (List.getLast?_eq_getLast v hl)
  simp [this]

theorem headerLoop_headerLines :
    ∀ (hdrs : List (Str × Str)) (headers : GoMap Str),
      (hdrs.map Prod.fst).Nodup →
      (∀ p ∈ hdrs, ∀ q ∈ headers, q.1 ≠ p.1) →
      (∀ p ∈ hdrs, ':' ∉ p.1 ∧ p.1 ≠ "Status".toList) →
      (∀ p ∈ hdrs, (∀ c, p.2.head? = some c → isSpace c = false) ∧
        ∀ c, p.2.getLast? = some c → isSpace c = false) →
      headerLoop headers (hdrs.map headerLine) = headers ++ hdrs := by
  intro hdrs
  induction hdrs with
  | nil => intro headers _ _ _ _; simp [headerLoop]
  | cons p rest ih =>
    intro headers hnd hdis hname hval
    obtain ⟨name, value⟩ := p
    obtain ⟨hcol, hst⟩ := hname (name, value) (List.mem_cons_self _ _)
    obtain ⟨hh, hl⟩ := hval (name, value) (List.mem_cons_self _ _)
    have hline : headerLine (name, value) = name ++ ':' :: ' ' :: value := by
      simp [headerLine]
    have hmem : ':' ∈ headerLine (name, value) := by
      rw [hline]
      simp
    have hb : beforeColon (headerLine (name, value)) = name := by
      rw [hline]
      exact takeWhile_first ':' name _ hcol
    have ha : afterColon (headerLine (name, value)) = ' ' :: value := by
      unfold afterColon
      rw [hline, dropWhile_first ':' name _ hcol]
      rfl
    rw [List.map_cons, headerLoop_cons_mem _ _ _ hmem, hb, if_neg hst, ha,
      TrimSpace_space_cons value hh hl,
      GoMap.set_new headers name value
        (fun q hq => hdis (name, value) (List.mem_cons_self _ _) q hq)]
    rw [List.map_cons, List.nodup_cons] at hnd
    rw [ih (headers ++ [(name, value)]) hnd.2 ?_
      (fun q hq => hname q (List.mem_cons_of_mem _ hq))
      (fun q hq => hval q (List.mem_cons_of_mem _ hq))]
    · simp
    · intro q hq x hx
      rw [List.mem_append, List.mem_singleton] at hx
      rcases hx with hx | hx
      · exact hdis q (List.mem_cons_of_mem _ hq) x hx
      · rw [hx]
        intro e
        exact hnd.1 (List.mem_map.2 ⟨q, hq, e.symm⟩)

theorem statusLine_no_char (n : Nat) (reason : Str) (c : Char)
    (hc : c = '\r' ∨ c = '\n') (hr : c ∉ reason) :
    c ∉ "Status: ".toList ++ decimal n ++ ' ' :: reason := by
  intro h
  rw [List.mem_append, List.mem_append, List.mem_cons] at h
  rcases h with (h | h) | h | h
  · rcases hc with rfl | rfl <;> exact absurd h (by decide)
  · have := (decimal_digits n c h).1
    rcases hc with rfl | rfl <;> exact absurd this (by decide)
  · rcases hc with rfl | rfl <;> exact absurd h (by decide)
  · exact hr h

theorem headerLine_no_char (p : Str × Str) (c : Char) (hc : c = '\r' ∨ c = '\n')
    (h1 : c ∉ p.1) (h2 : c ∉ p.2) : c ∉ headerLine p := by
  intro h
  unfold headerLine at h
  rw [List.mem_append, List.mem_append] at h
  rcases h with (h | h) | h
  · exact h1 h
  · rcases hc with rfl | rfl <;> exact absurd h (by decide)
  · exact h2 h

theorem headerLoop_statusLine (headers : GoMap Str) (rest : Str) (lines : List Str) :
    headerLoop headers (("Status: ".toList ++ rest) :: lines) = headerLoop headers lines := by
  have hline : "Status: ".toList ++ rest = "Status".toList ++ ':' :: ' ' :: rest := rfl
  have hmem : ':' ∈ "Status: ".toList ++ rest := by
    rw [hline]
    simp
  have hb : beforeColon ("Status: ".toList ++ rest) = "Status".toList := by
    rw [hline]
    exact takeWhile_first ':' _ _ (by decide)
  rw [headerLoop_cons_mem _ _ _ hmem, if_pos hb]

theorem Parse_serialize (n : Nat) (reason : Str) (hdrs : List (Str × Str)) (body : Str)
    (hn : n < 2 ^ 63)
    (hreason : '\r' ∉ reason ∧ '\n' ∉ reason)
    (hdistinct : (hdrs.map Prod.fst).Nodup)
    (hname : ∀ p ∈ hdrs, ':' ∉ p.1 ∧ '\r' ∉ p.1 ∧ '\n' ∉ p.1 ∧ p.1 ≠ "Status".toList)
    (hvalue : ∀ p ∈ hdrs, '\r' ∉ p.2 ∧ '\n' ∉ p.2 ∧
      (∀ c, p.2.head? = some c → isSpace c = false) ∧
      (∀ c, p.2.getLast? = some c → isSpace c = false)) :
    ParseFastCgiResponse (serialize n reason hdrs ++ "\r\n\r\n".toList ++ body) =
      .ok ⟨(n : Int), hdrs, body, none⟩ := by
  have hlines : ∀ c, c = '\r' ∨ c = '\n' → c ∉ reason → (∀ p ∈ hdrs, c ∉ p.1 ∧ c ∉ p.2) →
      ∀ l ∈ ("Status: ".toList ++ decimal n ++ ' ' :: reason) :: hdrs.map headerLine,
        c ∉ l := by
    intro c hc hr hp l hl
    rw [List.mem_cons, List.mem_map] at hl
    rcases hl with rfl | ⟨p, hp1, rfl⟩
    · exact statusLine_no_char n reason c hc hr
    · exact headerLine_no_char p c hc (hp p hp1).1 (hp p hp1).2
  have hcr : '\r' ∉ serialize n reason hdrs := by
    intro h
    rcases mem_intercalate _ _ _ h with h | ⟨l, hl, hc⟩
    · exact absurd h (by decide)
    · exact hlines '\r' (Or.inl rfl) hreason.1
        (fun p hp => ⟨(hname p hp).2.1, (hvalue p hp).1⟩) l hl hc
  have hsplit : (serialize n reason hdrs).splitOn '\n' =
      ("Status: ".toList ++ decimal n ++ ' ' :: reason) :: hdrs.map headerLine :=
    List.splitOn_intercalate _ '\n'
      (hlines '\n' (Or.inr rfl) hreason.2
        (fun p hp => ⟨(hname p hp).2.2.1, (hvalue p hp).2.1⟩))
      (List.cons_ne_nil _ _)
  have htake : (serialize n reason hdrs).takeWhile (· ≠ '\n') =
      "Status: ".toList ++ decimal n ++ ' ' :: reason := by
    obtain ⟨rest, hrest⟩ := splitOn_head '\n' (serialize n reason hdrs)
    rw [hsplit] at hrest
    exact (List.cons.inj hrest).1.symm
  rw [Parse_status_line n _ body (' ' :: reason) hn (not_delim_infix_of_no_cr _ hcr) htake
    (Or.inr ⟨reason, rfl⟩), hsplit, List.append_assoc, headerLoop_statusLine,
    headerLoop_headerLines hdrs [] hdistinct (fun _ _ q hq => absurd hq (List.not_mem_nil q))
      (fun p hp => ⟨(hname p hp).1, (hname p hp).2.2.2⟩)
      (fun p hp => (hvalue p hp).2.2)]
  rfl

theorem get_eq_none_of_keys {V : Type} (m : GoMap V) (k : Str) (h : ∀ p ∈ m, p.1 ≠ k) :
    m.get k = none := by
  induction m with
  | nil => rfl
  | cons q rest ih =>
    obtain ⟨a, b⟩ := q
    have h1 : a ≠ k := h (a, b) (List.mem_cons_self _ _)
    simp only [GoMap.get, h1, if_false]
    exact ih (fun p hp => h p (List.mem_cons_of_mem _ hp))

theorem Parse_ok_decomp (content : Str) (r : ParseResult)
    (hok : ParseFastCgiResponse content = .ok r) (herr : r.err = none) :
    ∃ hb body, content = hb ++ "\r\n\r\n".toList ++ body ∧
      ¬ "\r\n\r\n".toList <:+: hb ++ "\r\n\r".toList ∧
      r.headers = headerLoop [] (hb.splitOn '\n') ∧ r.body = body := by
  by_cases hin : "\r\n\r\n".toList <:+: content
  · cases hI : Index content "\r\n\r\n".toList with
    | none => exact absurd hin ((Index_eq_none_iff _ _).1 hI)
    | some m =>
      obtain ⟨h1, h2⟩ := Index_some_decomp "\r\n\r\n".toList (by decide) content m hI
      refine ⟨content.take m, content.drop (m + "\r\n\r\n".toList.length), h1, h2, ?_⟩
      obtain ⟨rest, hrest⟩ := splitOn_head '\n' (content.take m)
      rw [h1, Parse_of_delim _ _ _ rest h2 hrest] at hok
      rw [hrest]
      split at hok
      · split at hok
        · cases hok
          exact ⟨rfl, rfl⟩
        · cases hok
      · cases hok
        exact ⟨rfl, rfl⟩
  · rw [Parse_of_no_delim content hin] at hok
    cases hok
    cases herr

theorem find?_reverse_some (P : Str → Bool) (lines : List Str) (l : Str)
    (h : lines.reverse.find? P = some l) :
    ∃ pre post, lines = pre ++ l :: post ∧ P l = true ∧ ∀ x ∈ post, P x = false := by
  obtain ⟨hP, as, bs, hl, hnot⟩ := List.find?_eq_some.1 h
  refine ⟨bs.reverse, as.reverse, ?_, hP, ?_⟩
  · have := congrArg List.reverse hl
    simpa using this
  · intro x hx
    have := hnot x (List.mem_reverse.1 hx)
    simpa using this

theorem setsHeader_iff (k line : Str) :
    setsHeader k line = true ↔ ':' ∈ line ∧ beforeColon line = k ∧ k ≠ "Status".toList := by
  simp [setsHeader]

/-! ## The claims on `ParseFastCgiResponse` -/

/-- C1 (defect of the code): a status line without a space, `Status:404`,
makes `ParseFastCgiResponse` read `lineParts[1]` of a one-element slice: the
call panics with an index out of range and returns no result, although the
buffer contains the delimiter. -/
theorem C1_status_without_space_panics :
    ParseFastCgiResponse "Status:404\r\n\r\n".toList = .error (.indexOutOfRange 1 1) := by
  decide

/-- C2 (defect of the code): for the status line `Status: abc` the value that
`strconv.Atoi` returns beside its error, 0, replaces the default: the parsed
status is 0, not 200. -/
theorem C2_malformed_status_gives_zero :
    ParseFastCgiResponse "Status: abc\r\n\r\n".toList = .ok ⟨0, [], [], none⟩ := by
  decide

/-- C3 as stated fails at two inputs: the digits of `2 ^ 63` are parsed to
`2 ^ 63 - 1`, the largest `int`; and `Status: 404` ended by CR LF and followed
by another header line is parsed to 0, the CR being taken for part of the
number. -/
theorem C3_counterexample :
    (ParseFastCgiResponse ("Status: ".toList ++ decimal (2 ^ 63) ++ "\nX: y\r\n\r\n".toList) =
        .ok ⟨2 ^ 63 - 1, [("X".toList, "y".toList)], [], none⟩ ∧
      (2 ^ 63 - 1 : Int) ≠ ((2 ^ 63 : Nat) : Int)) ∧
    (ParseFastCgiResponse ("Status: ".toList ++ decimal 404 ++ "\r\nX: y\r\n\r\n".toList) =
        .ok ⟨0, [("X".toList, "y".toList)], [], none⟩ ∧
      (0 : Int) ≠ ((404 : Nat) : Int)) := by
  decide

/-- C3 (amended): for every `n` below `2 ^ 63` and every buffer whose header
block (the text before the first delimiter) has as first line, up to the first
LF, `Status: ` followed by the decimal digits of `n`, alone or followed by a
space and a reason phrase, `ParseFastCgiResponse` succeeds with status `n`. -/
theorem C3_status_line_parsed (n : Nat) (hb body tail : Str) (hn : n < 2 ^ 63)
    (hfirst : ¬ "\r\n\r\n".toList <:+: hb ++ "\r\n\r".toList)
    (hline : hb.takeWhile (· ≠ '\n') = "Status: ".toList ++ decimal n ++ tail)
    (htail : tail = [] ∨ ∃ reason, tail = ' ' :: reason) :
    ∃ r, ParseFastCgiResponse (hb ++ "\r\n\r\n".toList ++ body) = .ok r ∧
      r.status = (n : Int) ∧ r.err = none :=
  ⟨_, Parse_status_line n hb body tail hn hfirst hline htail, rfl, rfl⟩

theorem C3_status_line_parsed_witness :
    ∃ r, ParseFastCgiResponse
        ("Status: 404 Not Found\r\nX-Foo: bar".toList ++ "\r\n\r\n".toList ++ "hello".toList) =
          .ok r ∧ r.status = ((404 : Nat) : Int) ∧ r.err = none :=
  C3_status_line_parsed 404 "Status: 404 Not Found\r\nX-Foo: bar".toList "hello".toList
    " Not Found\r".toList (by decide) (by decide) (by decide)
    (Or.inr ⟨"Not Found\r".toList, rfl⟩)

/-- C4 as stated fails for a status beyond the range of `int`: the block
`Status: 9223372036854775808 Big` with no other header parses to status
`2 ^ 63 - 1`, not `2 ^ 63`. -/
theorem C4_counterexample :
    ParseFastCgiResponse (serialize (2 ^ 63) "Big".toList [] ++ "\r\n\r\n".toList ++ []) =
        .ok ⟨2 ^ 63 - 1, [], [], none⟩ ∧
      (2 ^ 63 - 1 : Int) ≠ ((2 ^ 63 : Nat) : Int) := by
  decide

/-- C4 (amended): round trip.  For every `n` below `2 ^ 63`, every reason phrase
without CR or LF, every list of headers with pairwise distinct names (names
without colon, CR or LF and other than `Status`; values without CR or LF and
without leading or trailing white space) and every body, parsing the line
`Status: n reason` and the lines `name: value` joined with LF, then CR LF CR LF,
then the body, gives status `n`, exactly the given headers, the given body and
no error; the mapping has no `Status` key. -/
theorem C4_round_trip (n : Nat) (reason : Str) (hdrs : List (Str × Str)) (body : Str)
    (hn : n < 2 ^ 63)
    (hreason : '\r' ∉ reason ∧ '\n' ∉ reason)
    (hdistinct : (hdrs.map Prod.fst).Nodup)
    (hname : ∀ p ∈ hdrs, ':' ∉ p.1 ∧ '\r' ∉ p.1 ∧ '\n' ∉ p.1 ∧ p.1 ≠ "Status".toList)
    (hvalue : ∀ p ∈ hdrs, '\r' ∉ p.2 ∧ '\n' ∉ p.2 ∧
      (∀ c, p.2.head? = some c → isSpace c = false) ∧
      (∀ c, p.2.getLast? = some c → isSpace c = false)) :
    ParseFastCgiResponse (serialize n reason hdrs ++ "\r\n\r\n".toList ++ body) =
        .ok ⟨(n : Int), hdrs, body, none⟩ ∧
      GoMap.get hdrs "Status".toList = none :=
  ⟨Parse_serialize n reason hdrs body hn hreason hdistinct hname hvalue,
    get_eq_none_of_keys hdrs _ (fun p hp => (hname p hp).2.2.2)⟩

theorem C4_round_trip_witness :
    ParseFastCgiResponse
        (serialize 404 "Not Found".toList [("X-Foo".toList, "bar".toList)] ++
          "\r\n\r\n".toList ++ "hello\r\n\r\nworld".toList) =
        .ok ⟨((404 : Nat) : Int), [("X-Foo".toList, "bar".toList)],
          "hello\r\n\r\nworld".toList, none⟩ ∧
      GoMap.get [("X-Foo".toList, "bar".toList)] "Status".toList = none :=
  C4_round_trip 404 "Not Found".toList [("X-Foo".toList, "bar".toList)]
    "hello\r\n\r\nworld".toList (by decide) (by decide) (by decide) (by decide) (by decide)

/-- C5: a buffer that does not contain the delimiter CR LF CR LF fails to
parse: the result is status 502, an empty header mapping, an empty body and
the error `Cannot parse FastCGI Response`. -/
theorem C5_missing_delimiter_fails (content : Str)
    (h : ¬ "\r\n\r\n".toList <:+: content) :
    ParseFastCgiResponse content =
      .ok ⟨502, [], [], some "Cannot parse FastCGI Response".toList⟩ :=
  Parse_of_no_delim content h

theorem C5_missing_delimiter_fails_witness :
    ParseFastCgiResponse "X-Foo: bar".toList =
      .ok ⟨502, [], [], some "Cannot parse FastCGI Response".toList⟩ :=
  C5_missing_delimiter_fails "X-Foo: bar".toList (by decide)

/-- C6: for every successfully parsed buffer and every name `k`, with the
header block (the text before the first CR LF CR LF) split on LF: the returned
mapping contains `k` exactly when `k` is not `Status` and some line has a colon
and `k` before its first colon; the value of `k` is then the trimmed text after
the first colon of the last such line.  Lines without a colon add nothing. -/
theorem C6_header_mapping (content : Str) (r : ParseResult) (k : Str)
    (hok : ParseFastCgiResponse content = .ok r) (herr : r.err = none) :
    ∃ hb body, content = hb ++ "\r\n\r\n".toList ++ body ∧
      ¬ "\r\n\r\n".toList <:+: hb ++ "\r\n\r".toList ∧
      ((r.headers.get k).isSome = true ↔
        k ≠ "Status".toList ∧ ∃ line ∈ hb.splitOn '\n', ':' ∈ line ∧ beforeColon line = k) ∧
      ∀ v, r.headers.get k = some v →
        ∃ pre line post, hb.splitOn '\n' = pre ++ line :: post ∧
          ':' ∈ line ∧ beforeColon line = k ∧
          (∀ l ∈ post, ¬ (':' ∈ l ∧ beforeColon l = k)) ∧
          v = TrimSpace (afterColon line) := by
  obtain ⟨hb, body, hc, hfirst, hh, _⟩ := Parse_ok_decomp content r hok herr
  refine ⟨hb, body, hc, hfirst, ?_⟩
  have hget := headerLoop_get k (hb.splitOn '\n') []
  rw [← hh] at hget
  cases hfind : (hb.splitOn '\n').reverse.find? (setsHeader k) with
  | none =>
    rw [hfind] at hget
    have hnone : r.headers.get k = none := hget
    rw [List.find?_eq_none] at hfind
    refine ⟨?_, ?_⟩
    · rw [hnone]
      constructor
      · intro h
        cases h
      · rintro ⟨hk, line, hl, hcol, hbef⟩
        exact absurd ((setsHeader_iff k line).2 ⟨hcol, hbef, hk⟩)
          (hfind line (List.mem_reverse.2 hl))
    · intro v hv
      rw [hnone] at hv
      cases hv
  | some l =>
    rw [hfind] at hget
    have hsome : r.headers.get k = some (TrimSpace (afterColon l)) := hget
    obtain ⟨pre, post, hsplit, hP, hpost⟩ := find?_reverse_some _ _ _ hfind
    obtain ⟨hcol, hbef, hk⟩ := (setsHeader_iff k l).1 hP
    refine ⟨?_, ?_⟩
    · rw [hsome]
      refine ⟨fun _ => ⟨hk, l, ?_, hcol, hbef⟩, fun _ => rfl⟩
      rw [hsplit]
      simp
    · intro v hv
      rw [hsome] at hv
      refine ⟨pre, l, post, hsplit, hcol, hbef, ?_, (Option.some.inj hv).symm⟩
      rintro x hx ⟨h1, h2⟩
      have := hpost x hx
      rw [(setsHeader_iff k x).2 ⟨h1, h2, hk⟩] at this
      cases this

theorem C6_header_mapping_witness :
    ∃ hb body,
      "Status: 404 Not Found\nX-Foo: bar\nnocolon\nX-Foo:  baz \r\n\r\nhello".toList =
        hb ++ "\r\n\r\n".toList ++ body ∧
      ¬ "\r\n\r\n".toList <:+: hb ++ "\r\n\r".toList ∧
      ((GoMap.get [("X-Foo".toList, "baz".toList)] "X-Foo".toList).isSome = true ↔
        "X-Foo".toList ≠ "Status".toList ∧
          ∃ line ∈ hb.splitOn '\n', ':' ∈ line ∧ beforeColon line = "X-Foo".toList) ∧
      ∀ v, GoMap.get [("X-Foo".toList, "baz".toList)] "X-Foo".toList = some v →
        ∃ pre line post, hb.splitOn '\n' = pre ++ line :: post ∧
          ':' ∈ line ∧ beforeColon line = "X-Foo".toList ∧
          (∀ l ∈ post, ¬ (':' ∈ l ∧ beforeColon l = "X-Foo".toList)) ∧
          v = TrimSpace (afterColon line) :=
  C6_header_mapping
    "Status: 404 Not Found\nX-Foo: bar\nnocolon\nX-Foo:  baz \r\n\r\nhello".toList
    ⟨404, [("X-Foo".toList, "baz".toList)], "hello".toList, none⟩ "X-Foo".toList
    (by decide) rfl

/-- C7: for every body `b`, the buffer made of the delimiter and `b` parses to
status 200, an empty header mapping, body `b` and no error. -/
theorem C7_empty_header_block (b : Str) :
    ParseFastCgiResponse ("\r\n\r\n".toList ++ b) = .ok ⟨200, [], b, none⟩ := by
  have h := Parse_of_delim [] b [] [] (by decide) rfl
  rw [List.nil_append] at h
  rw [h]
  rfl

/-! ## The environment of `FcgiHandler` -/

theorem keys_set {V : Type} (m : GoMap V) (k k' : Str) (v : V) (hne : k' ≠ k)
    (h : k' ∉ m.map Prod.fst) : k' ∉ (m.set k v).map Prod.fst := by
  intro hm
  obtain ⟨p, hp, rfl⟩ := List.mem_map.1 hm
  rcases GoMap.mem_set m k v p hp with h1 | h1
  · exact h (List.mem_map.2 ⟨p, h1, rfl⟩)
  · exact hne (by rw [h1])

theorem headerEnvStep_no_proxy (env : GoMap Str) (kv : Str × List Str)
    (h : "HTTP_PROXY".toList ∉ env.map Prod.fst) :
    "HTTP_PROXY".toList ∉ (headerEnvStep env kv).map Prod.fst := by
  unfold headerEnvStep
  by_cases hk : stringsMap upperCaseAndUnderscore kv.1 = "PROXY".toList
  · simp only [hk, if_true]
    exact h
  · simp only [hk, if_false]
    apply keys_set _ _ _ _ _ h
    intro e
    exact hk (List.append_cancel_left (e.symm.trans (rfl : "HTTP_PROXY".toList =
      "HTTP_".toList ++ "PROXY".toList)))

theorem foldl_headerEnvStep_no_proxy :
    ∀ (hdr : GoMap (List Str)) (env : GoMap Str),
      "HTTP_PROXY".toList ∉ env.map Prod.fst →
      "HTTP_PROXY".toList ∉ (hdr.foldl headerEnvStep env).map Prod.fst := by
  intro hdr
  induction hdr with
  | nil => intro env h; exact h
  | cons kv rest ih =>
    intro env h
    exact ih _ (headerEnvStep_no_proxy env kv h)

/-- C8: for every request, whatever the names and values of its headers (so
for every spelling of `Proxy`), the environment built by `FcgiHandler` has no
key `HTTP_PROXY`. -/
theorem C8_no_http_proxy (h : CgiHandler) (r : Request) :
    "HTTP_PROXY".toList ∉ (fcgiEnv h r).map Prod.fst := by
  unfold fcgiEnv
  apply foldl_headerEnvStep_no_proxy
  have hbase : ∀ env : GoMap Str, "HTTP_PROXY".toList ∉ env.map Prod.fst →
      "HTTP_PROXY".toList ∉
        ((if HeaderGet r.Header "Content-Type".toList ≠ [] then
          (if r.ContentLength > 0 then
            env.set "CONTENT_LENGTH".toList (Sprint r.ContentLength) else env).set
              "CONTENT_TYPE".toList (HeaderGet r.Header "Content-Type".toList)
          else (if r.ContentLength > 0 then
            env.set "CONTENT_LENGTH".toList (Sprint r.ContentLength) else env)) :
          GoMap Str).map Prod.fst := by
    intro env henv
    have h1 : "HTTP_PROXY".toList ∉
        ((if r.ContentLength > 0 then
          env.set "CONTENT_LENGTH".toList (Sprint r.ContentLength) else env) :
          GoMap Str).map Prod.fst := by
      split
      · exact keys_set _ _ _ _ (by decide) henv
      · exact henv
    split
    · exact keys_set _ _ _ _ (by decide) h1
    · exact h1
  apply hbase
  repeat (apply keys_set _ _ _ _ (by decide))
  simp

/-! ## The dispatcher -/

/-- C9 (defect of the code): in FastCGI mode, for the request `/app/` on a
directory, the dispatcher substitutes the default application
`/www/index.php` and classifies the request as CGI, but the environment that
`FcgiHandler` sends has `SCRIPT_FILENAME` equal to `/www/app`, the root joined
with the URL path. -/
theorem C9_script_filename_ignores_target :
    (resolve phpHandler exampleFS (getRequest "/app/".toList)).isCGI = true ∧
      (resolve phpHandler exampleFS (getRequest "/app/".toList)).file =
        "/www/index.php".toList ∧
      ∃ env, ServeHTTP phpHandler exampleFS (getRequest "/app/".toList) = .fcgi env ∧
        env.get "SCRIPT_FILENAME".toList = some "/www/app".toList :=
  ⟨by decide, by decide, _, rfl, by decide⟩

/-- C10 as stated fails: the extension `.php` of `/missing.php` has an entry,
the file does not exist and a default application is configured; the
dispatcher substitutes `/www/app.pl` and its interpreter `perl`. -/
theorem C10_counterexample :
    perlHandler.LangMap.get (Ext (requestFile (getRequest "/missing.php".toList))) =
        some "php-cgi".toList ∧
      resolve perlHandler exampleFS (getRequest "/missing.php".toList) =
        ⟨"/www/app.pl".toList, "perl".toList, true, none⟩ := by
  decide

/-- C10 (amended): for every request whose path extension has an entry in the
route table: when the requested file exists and is no directory, the request
is classified as CGI with that entry's interpreter and the requested file as
target, whatever the default application; when the file is missing or a
directory, a configured default application replaces the target and the lookup
is repeated on its extension, and without a default application the lookup is
repeated on the extension of the root joined with the requested file. -/
theorem C10_resolution (h : CgiHandler) (fs : FileSystem) (r : Request) (bin : Str)
    (hentry : h.LangMap.get (Ext (requestFile r)) = some bin) :
    (∀ info, fs (filepathJoin [h.Root, requestFile r]) = some info → info.IsDir = false →
      resolve h fs r = ⟨filepathJoin [h.Root, requestFile r], bin, true, some info⟩) ∧
    ((fs (filepathJoin [h.Root, requestFile r]) = none ∨
        ∃ info, fs (filepathJoin [h.Root, requestFile r]) = some info ∧ info.IsDir = true) →
      (h.DefaultApp ≠ [] →
        resolve h fs r =
          ⟨h.DefaultApp, (h.LangMap.lookup (Ext h.DefaultApp)).1,
            (h.LangMap.lookup (Ext h.DefaultApp)).2,
            fs (filepathJoin [h.Root, requestFile r])⟩) ∧
      (h.DefaultApp = [] →
        resolve h fs r =
          ⟨filepathJoin [h.Root, requestFile r],
            (h.LangMap.lookup (Ext (filepathJoin [h.Root, requestFile r]))).1,
            (h.LangMap.lookup (Ext (filepathJoin [h.Root, requestFile r]))).2,
            fs (filepathJoin [h.Root, requestFile r])⟩)) := by
  refine ⟨?_, ?_⟩
  · intro info hinfo hdir
    simp [resolve, GoMap.lookup, hentry, hinfo, hdir]
  · intro hmiss
    have hcond : fs (filepathJoin [h.Root, requestFile r]) = none ∨
        (fs (filepathJoin [h.Root, requestFile r])).any (·.IsDir) = true := by
      rcases hmiss with hm | ⟨info, hm, hd⟩
      · exact Or.inl hm
      · exact Or.inr (by simp [hm, hd])
    refine ⟨?_, ?_⟩
    · intro hdef
      have hlen : h.DefaultApp.length > 0 := List.length_pos.2 hdef
      simp only [resolve, hcond, if_true, hlen]
    · intro hdef
      simp only [resolve, hcond, if_true, hdef, List.length_nil, gt_iff_lt, Nat.lt_irrefl,
        if_false]

theorem C10_resolution_witness :
    perlHandler.LangMap.get (Ext (requestFile (getRequest "/app.pl".toList))) =
        some "perl".toList ∧
      resolve perlHandler exampleFS (getRequest "/app.pl".toList) =
        ⟨"/www/app.pl".toList, "perl".toList, true, some ⟨false⟩⟩ :=
  ⟨by decide,
    (C10_resolution perlHandler exampleFS (getRequest "/app.pl".toList) "perl".toList
      (by decide)).1 ⟨false⟩ (by decide) rfl⟩

/-! ## Canonical header names -/

theorem char_le_iff (a b : Char) : a ≤ b ↔ a.toNat ≤ b.toNat := Iff.rfl

theorem upper_of_lower (r : Char) (h : 'a' ≤ r ∧ r ≤ 'z') :
    ∃ n, 97 ≤ n ∧ n ≤ 122 ∧ r = Char.ofNat n ∧
      upperCaseAndUnderscore r = Char.ofNat (n - 32) := by
  refine ⟨r.toNat, (char_le_iff _ _).1 h.1, (char_le_iff _ _).1 h.2,
    (Char.ofNat_toNat r).symm, ?_⟩
  unfold upperCaseAndUnderscore
  rw [if_pos h]
  rfl

theorem upper_fixed (n : Nat) (h1 : 97 ≤ n) (h2 : n ≤ 122) :
    upperCaseAndUnderscore (Char.ofNat (n - 32)) = Char.ofNat (n - 32) ∧
      isUpperDigitUnderscore (Char.ofNat (n - 32)) ∧
      ¬ isLowerAscii (Char.ofNat (n - 32)) ∧
      Char.ofNat (n - 32) ≠ '-' ∧ Char.ofNat (n - 32) ≠ '=' := by
  unfold isUpperDigitUnderscore isLowerAscii
  interval_cases n <;> decide

theorem upper_idem (r : Char) :
    upperCaseAndUnderscore (upperCaseAndUnderscore r) = upperCaseAndUnderscore r := by
  by_cases hl : 'a' ≤ r ∧ r ≤ 'z'
  · obtain ⟨n, h1, h2, _, hu⟩ := upper_of_lower r hl
    rw [hu]
    exact (upper_fixed n h1 h2).1
  · by_cases hm : r = '-'
    · subst hm
      decide
    · by_cases he : r = '='
      · subst he
        decide
      · have : upperCaseAndUnderscore r = r := by
          unfold upperCaseAndUnderscore
          rw [if_neg hl, if_neg hm, if_neg he]
        rw [this, this]

theorem upper_range (r : Char) :
    ¬ isLowerAscii (upperCaseAndUnderscore r) ∧ upperCaseAndUnderscore r ≠ '-' ∧
      upperCaseAndUnderscore r ≠ '=' := by
  by_cases hl : 'a' ≤ r ∧ r ≤ 'z'
  · obtain ⟨n, h1, h2, _, hu⟩ := upper_of_lower r hl
    rw [hu]
    exact (upper_fixed n h1 h2).2.2
  · by_cases hm : r = '-'
    · subst hm
      unfold isLowerAscii
      decide
    · by_cases he : r = '='
      · subst he
        unfold isLowerAscii
        decide
      · have : upperCaseAndUnderscore r = r := by
          unfold upperCaseAndUnderscore
          rw [if_neg hl, if_neg hm, if_neg he]
        rw [this]
        exact ⟨hl, hm, he⟩

/-- C11: canonicalisation is idempotent: mapping `upperCaseAndUnderscore` over
every character of a name twice gives the same string as mapping it once. -/
theorem C11_canon_idempotent (s : Str) :
    stringsMap upperCaseAndUnderscore (stringsMap upperCaseAndUnderscore s) =
      stringsMap upperCaseAndUnderscore s := by
  unfold stringsMap
  rw [List.map_map]
  apply List.map_congr_left
  intro c _
  exact upper_idem c

/-- C12: the canonical form of any string contains no `=`, no `-` and no
lowercase ASCII letter. -/
theorem C12_canon_range (s : Str) :
    '=' ∉ stringsMap upperCaseAndUnderscore s ∧ '-' ∉ stringsMap upperCaseAndUnderscore s ∧
      ∀ c ∈ stringsMap upperCaseAndUnderscore s, ¬ ('a' ≤ c ∧ c ≤ 'z') := by
  unfold stringsMap
  refine ⟨?_, ?_, ?_⟩
  · intro hm
    obtain ⟨r, _, hr⟩ := List.mem_map.1 hm
    exact (upper_range r).2.2 hr
  · intro hm
    obtain ⟨r, _, hr⟩ := List.mem_map.1 hm
    exact (upper_range r).2.1 hr
  · intro c hm
    obtain ⟨r, _, hr⟩ := List.mem_map.1 hm
    rw [← hr]
    exact (upper_range r).1

theorem C12_canon_range_witness :
    '=' ∉ stringsMap upperCaseAndUnderscore "x-Foo=z".toList ∧
      '-' ∉ stringsMap upperCaseAndUnderscore "x-Foo=z".toList ∧
      ∀ c ∈ stringsMap upperCaseAndUnderscore "x-Foo=z".toList, ¬ ('a' ≤ c ∧ c ≤ 'z') :=
  C12_canon_range "x-Foo=z".toList

/-! ## Reading the environment -/

theorem fcgiEnv_eq (h : CgiHandler) (r : Request) :
    fcgiEnv h r = r.Header.foldl headerEnvStep (baseEnv h r) := rfl

theorem setsEnv_iff (key : Str) (kv : Str × List Str) :
    setsEnv key kv = true ↔
      canon kv.1 ≠ "PROXY".toList ∧ "HTTP_".toList ++ canon kv.1 = key := by
  simp [setsEnv]

theorem headerEnvStep_get (env : GoMap Str) (kv : Str × List Str) (key : Str) :
    (headerEnvStep env kv).get key =
      if setsEnv key kv = true then some (envValue kv) else env.get key := by
  unfold headerEnvStep
  by_cases hp : stringsMap upperCaseAndUnderscore kv.1 = "PROXY".toList
  · have hs : setsEnv key kv = false := by
      rw [Bool.eq_false_iff]
      intro hq
      exact ((setsEnv_iff key kv).1 hq).1 hp
    simp only [hp, if_true, hs, Bool.false_eq_true, if_false]
  · simp only [hp, if_false]
    rw [GoMap.get_set]
    by_cases hk : "HTTP_".toList ++ stringsMap upperCaseAndUnderscore kv.1 = key
    · have hs : setsEnv key kv = true := (setsEnv_iff key kv).2 ⟨hp, hk⟩
      rw [if_pos hk, if_pos hs]
      rfl
    · have hs : setsEnv key kv = false := by
        rw [Bool.eq_false_iff]
        intro hq
        exact hk ((setsEnv_iff key kv).1 hq).2
      rw [if_neg hk, hs]
      rfl

theorem foldl_headerEnvStep_get (key : Str) :
    ∀ (hdr : GoMap (List Str)) (env : GoMap Str),
      (hdr.foldl headerEnvStep env).get key =
        match hdr.reverse.find? (setsEnv key) with
        | some kv => some (envValue kv)
        | none => env.get key := by
  intro hdr
  induction hdr with
  | nil => intro env; rfl
  | cons kv rest ih =>
    intro env
    rw [List.foldl_cons, ih, List.reverse_cons, List.find?_append, headerEnvStep_get]
    cases rest.reverse.find? (setsEnv key) with
    | some x => rfl
    | none =>
      by_cases hs : setsEnv key kv = true
      · simp [List.find?, hs]
      · rw [Bool.not_eq_true] at hs
        simp [List.find?, hs]

theorem fcgiEnv_get_of_not_set (h : CgiHandler) (r : Request) (key : Str)
    (hk : ¬ "HTTP_".toList <+: key) : (fcgiEnv h r).get key = (baseEnv h r).get key := by
  rw [fcgiEnv_eq, foldl_headerEnvStep_get]
  have hnone : r.Header.reverse.find? (setsEnv key) = none := by
    rw [List.find?_eq_none]
    intro kv _ hs
    exact hk ⟨_, ((setsEnv_iff key kv).1 hs).2⟩
  rw [hnone]

theorem mem_keys_set {V : Type} (m : GoMap V) (k k' : Str) (v : V)
    (h : k' ∈ (m.set k v).map Prod.fst) : k' ∈ m.map Prod.fst ∨ k' = k := by
  by_cases hk : k' = k
  · exact Or.inr hk
  · exact Or.inl (by
      by_contra hn
      exact keys_set m k k' v hk hn h)

theorem keys_baseEnv (h : CgiHandler) (r : Request) (key : Str)
    (hk : key ∈ (baseEnv h r).map Prod.fst) : key ∈ fixedKeys := by
  unfold baseEnv at hk
  simp only [] at hk
  split at hk
  · rcases mem_keys_set _ _ _ _ hk with hk | hk
    · split at hk
      · repeat (rcases mem_keys_set _ _ _ _ hk with hk | hk; swap; (rw [hk]; decide))
        simp at hk
      · repeat (rcases mem_keys_set _ _ _ _ hk with hk | hk; swap; (rw [hk]; decide))
        simp at hk
    · rw [hk]; decide
  · split at hk
    · repeat (rcases mem_keys_set _ _ _ _ hk with hk | hk; swap; (rw [hk]; decide))
      simp at hk
    · repeat (rcases mem_keys_set _ _ _ _ hk with hk | hk; swap; (rw [hk]; decide))
      simp at hk

theorem keys_foldl_headerEnvStep (key : Str) :
    ∀ (hdr : GoMap (List Str)) (env : GoMap Str),
      key ∈ (hdr.foldl headerEnvStep env).map Prod.fst →
      key ∈ env.map Prod.fst ∨ ∃ kv ∈ hdr, key = "HTTP_".toList ++ canon kv.1 := by
  intro hdr
  induction hdr with
  | nil => intro env hk; exact Or.inl hk
  | cons kv rest ih =>
    intro env hk
    rw [List.foldl_cons] at hk
    rcases ih _ hk with h1 | ⟨x, hx, hkey⟩
    · unfold headerEnvStep at h1
      simp only [] at h1
      split at h1
      · exact Or.inl h1
      · rcases mem_keys_set _ _ _ _ h1 with h2 | h2
        · exact Or.inl h2
        · exact Or.inr ⟨kv, List.mem_cons_self _ _, h2⟩
    · exact Or.inr ⟨x, List.mem_cons_of_mem _ hx, hkey⟩

theorem keys_fcgiEnv (h : CgiHandler) (r : Request) (key : Str)
    (hk : key ∈ (fcgiEnv h r).map Prod.fst) :
    key ∈ fixedKeys ∨ ∃ kv ∈ r.Header, key = "HTTP_".toList ++ canon kv.1 := by
  rw [fcgiEnv_eq] at hk
  rcases keys_foldl_headerEnvStep key _ _ hk with h1 | h1
  · exact Or.inl (keys_baseEnv h r key h1)
  · exact Or.inr h1

/-! ## The claims on the environment -/

theorem upperDigitUnderscore_range (c : Char) (h : isUpperDigitUnderscore c) :
    ¬ isLowerAscii c ∧ c ≠ '-' ∧ c ≠ '=' := by
  unfold isUpperDigitUnderscore at h
  unfold isLowerAscii
  have ha : 'a'.toNat = 97 := rfl
  have hZ : 'Z'.toNat = 90 := rfl
  have h9 : '9'.toNat = 57 := rfl
  have hA : 'A'.toNat = 65 := rfl
  have h0 : '0'.toNat = 48 := rfl
  have hm : '-'.toNat = 45 := rfl
  have he : '='.toNat = 61 := rfl
  rcases h with ⟨h1, h2⟩ | ⟨h1, h2⟩ | h
  · have h1' := (char_le_iff _ _).1 h1
    have h2' := (char_le_iff _ _).1 h2
    refine ⟨fun hl => ?_, fun e => ?_, fun e => ?_⟩
    · have := (char_le_iff _ _).1 hl.1
      omega
    · rw [e] at h1' h2'
      omega
    · rw [e] at h1' h2'
      omega
  · have h1' := (char_le_iff _ _).1 h1
    have h2' := (char_le_iff _ _).1 h2
    refine ⟨fun hl => ?_, fun e => ?_, fun e => ?_⟩
    · have := (char_le_iff _ _).1 hl.1
      omega
    · rw [e] at h1' h2'
      omega
    · rw [e] at h1' h2'
      omega
  · subst h
    decide

theorem upper_plain (r : Char) (h : isPlainNameChar r) :
    isUpperDigitUnderscore (upperCaseAndUnderscore r) := by
  by_cases hl : 'a' ≤ r ∧ r ≤ 'z'
  · obtain ⟨n, h1, h2, _, hu⟩ := upper_of_lower r hl
    rw [hu]
    exact (upper_fixed n h1 h2).2.1
  · have hkeep : isUpperDigitUnderscore r → isUpperDigitUnderscore (upperCaseAndUnderscore r) := by
      intro hr
      obtain ⟨_, hm, he⟩ := upperDigitUnderscore_range r hr
      have : upperCaseAndUnderscore r = r := by
        unfold upperCaseAndUnderscore
        rw [if_neg hl, if_neg hm, if_neg he]
      rw [this]
      exact hr
    unfold isPlainNameChar at h
    rcases h with h | h | h | h | h | h
    · exact absurd h hl
    · exact hkeep (Or.inl h)
    · exact hkeep (Or.inr (Or.inl h))
    · subst h
      exact Or.inr (Or.inr (by decide))
    · exact hkeep (Or.inr (Or.inr h))
    · subst h
      exact Or.inr (Or.inr (by decide))

theorem fixedKeys_chars : ∀ key ∈ fixedKeys, ∀ c ∈ key, isUpperDigitUnderscore c := by
  unfold isUpperDigitUnderscore
  decide

theorem http_chars : ∀ c ∈ "HTTP_".toList, isUpperDigitUnderscore c := by
  unfold isUpperDigitUnderscore
  decide

/-- C13 as stated fails: the request header `X.Foo` gives the key
`HTTP_X.FOO`, which contains a dot. -/
theorem C13_counterexample :
    "HTTP_X.FOO".toList ∈
        (fcgiEnv phpHandler
          { getRequest "/".toList with Header := [("X.Foo".toList, ["1".toList])] }).map
          Prod.fst ∧
      '.' ∈ "HTTP_X.FOO".toList ∧
      ¬ (('A' ≤ '.' ∧ '.' ≤ 'Z') ∨ ('0' ≤ '.' ∧ '.' ≤ '9') ∨ '.' = '_') := by
  decide

/-- C13 (amended): for every request, no key of the environment built by
`FcgiHandler` contains a lowercase ASCII letter, a `-` or a `=`; and when every
header name of the request consists of ASCII letters, digits, `-`, `_` and `=`
only, every key consists of uppercase ASCII letters, digits and `_` only. -/
theorem C13_env_keys (h : CgiHandler) (r : Request) :
    (∀ key ∈ (fcgiEnv h r).map Prod.fst, ∀ c ∈ key,
        ¬ ('a' ≤ c ∧ c ≤ 'z') ∧ c ≠ '-' ∧ c ≠ '=') ∧
      ((∀ kv ∈ r.Header, ∀ c ∈ kv.1, isPlainNameChar c) →
        ∀ key ∈ (fcgiEnv h r).map Prod.fst, ∀ c ∈ key, isUpperDigitUnderscore c) := by
  refine ⟨?_, ?_⟩
  · intro key hk c hc
    rcases keys_fcgiEnv h r key hk with h1 | ⟨kv, _, rfl⟩
    · exact upperDigitUnderscore_range c (fixedKeys_chars key h1 c hc)
    · rw [List.mem_append] at hc
      rcases hc with hc | hc
      · exact upperDigitUnderscore_range c (http_chars c hc)
      · obtain ⟨x, _, rfl⟩ := List.mem_map.1 hc
        exact upper_range x
  · intro hnames key hk c hc
    rcases keys_fcgiEnv h r key hk with h1 | ⟨kv, hkv, rfl⟩
    · exact fixedKeys_chars key h1 c hc
    · rw [List.mem_append] at hc
      rcases hc with hc | hc
      · exact http_chars c hc
      · obtain ⟨x, hx, rfl⟩ := List.mem_map.1 hc
        exact upper_plain x (hnames kv hkv x hx)

theorem C13_env_keys_witness :
    (∀ key ∈ (fcgiEnv phpHandler
          { getRequest "/".toList with Header := [("X-Foo".toList, ["1".toList])] }).map
          Prod.fst, ∀ c ∈ key, ¬ ('a' ≤ c ∧ c ≤ 'z') ∧ c ≠ '-' ∧ c ≠ '=') ∧
      ∀ key ∈ (fcgiEnv phpHandler
          { getRequest "/".toList with Header := [("X-Foo".toList, ["1".toList])] }).map
          Prod.fst, ∀ c ∈ key, isUpperDigitUnderscore c :=
  ⟨(C13_env_keys phpHandler
      { getRequest "/".toList with Header := [("X-Foo".toList, ["1".toList])] }).1,
    (C13_env_keys phpHandler
      { getRequest "/".toList with Header := [("X-Foo".toList, ["1".toList])] }).2
      (by unfold isPlainNameChar; decide)⟩

theorem fcgiEnv_get_header (h : CgiHandler) (r : Request) (pre post : GoMap (List Str))
    (kv : Str × List Str) (hhdr : r.Header = pre ++ kv :: post)
    (hproxy : canon kv.1 ≠ "PROXY".toList)
    (hpost : ∀ x ∈ post, canon x.1 ≠ canon kv.1) :
    (fcgiEnv h r).get ("HTTP_".toList ++ canon kv.1) = some (envValue kv) := by
  rw [fcgiEnv_eq, foldl_headerEnvStep_get, hhdr]
  have hnone : post.reverse.find? (setsEnv ("HTTP_".toList ++ canon kv.1)) = none := by
    rw [List.find?_eq_none]
    intro x hx hs
    exact hpost x (List.mem_reverse.1 hx)
      (List.append_cancel_left ((setsEnv_iff _ x).1 hs).2)
  have hs : setsEnv ("HTTP_".toList ++ canon kv.1) kv = true :=
    (setsEnv_iff _ kv).2 ⟨hproxy, rfl⟩
  rw [List.reverse_append, List.reverse_cons, List.append_assoc, List.find?_append, hnone]
  simp only [Option.none_or, List.singleton_append, List.find?, hs]

/-- C14: for every request header with canonical name `c` other than `PROXY`
and values `vs`, when no other header of the request has the canonical name
`c`, the environment maps `HTTP_c` to `vs` joined with `; ` if `c` is `COOKIE`
and with `, ` otherwise. -/
theorem C14_header_values (h : CgiHandler) (r : Request) (pre post : GoMap (List Str))
    (name : Str) (vs : List Str) (hhdr : r.Header = pre ++ (name, vs) :: post)
    (hproxy : canon name ≠ "PROXY".toList)
    (hother : ∀ kv ∈ pre ++ post, canon kv.1 ≠ canon name) :
    (fcgiEnv h r).get ("HTTP_".toList ++ canon name) =
      some (Join vs (if canon name = "COOKIE".toList then "; ".toList else ", ".toList)) :=
  fcgiEnv_get_header h r pre post (name, vs) hhdr hproxy
    (fun x hx => hother x (List.mem_append_right _ hx))

theorem C14_header_values_witness :
    (fcgiEnv phpHandler
        { getRequest "/".toList with
          Header := [("Cookie".toList, ["a=1".toList, "b=2".toList]),
            ("X-Test".toList, ["x".toList, "y".toList])] }).get "HTTP_COOKIE".toList =
      some "a=1; b=2".toList ∧
    (fcgiEnv phpHandler
        { getRequest "/".toList with
          Header := [("Cookie".toList, ["a=1".toList, "b=2".toList]),
            ("X-Test".toList, ["x".toList, "y".toList])] }).get "HTTP_X_TEST".toList =
      some "x, y".toList :=
  ⟨C14_header_values phpHandler _ [] [("X-Test".toList, ["x".toList, "y".toList])]
      "Cookie".toList ["a=1".toList, "b=2".toList] rfl (by decide) (by decide),
    C14_header_values phpHandler _ [("Cookie".toList, ["a=1".toList, "b=2".toList])] []
      "X-Test".toList ["x".toList, "y".toList] rfl (by decide) (by decide)⟩

theorem GoMap.get_eq_some_iff {V : Type} (m : GoMap V) (k : Str) (v : V)
    (hnd : (m.map Prod.fst).Nodup) : m.get k = some v ↔ (k, v) ∈ m := by
  induction m with
  | nil => simp [GoMap.get]
  | cons p rest ih =>
    obtain ⟨a, b⟩ := p
    rw [List.map_cons, List.nodup_cons] at hnd
    by_cases ha : a = k
    · subst ha
      simp only [GoMap.get, if_true, Option.some.injEq, List.mem_cons, Prod.mk.injEq,
        true_and]
      constructor
      · intro e
        exact Or.inl e.symm
      · rintro (e | hm)
        · exact e.symm
        · exact absurd (List.mem_map.2 ⟨(a, v), hm, rfl⟩) hnd.1
    · simp only [GoMap.get, ha, if_false, List.mem_cons, Prod.mk.injEq]
      rw [ih hnd.2]
      constructor
      · intro hm
        exact Or.inr hm
      · rintro (⟨e, _⟩ | hm)
        · exact absurd e.symm ha
        · exact hm

theorem GoMap.get_perm {V : Type} (m1 m2 : GoMap V) (k : Str)
    (hnd : (m1.map Prod.fst).Nodup) (hp : m1.Perm m2) : m1.get k = m2.get k := by
  have hnd2 : (m2.map Prod.fst).Nodup := ((hp.map Prod.fst).nodup_iff).1 hnd
  apply Option.ext
  intro v
  rw [Option.mem_def, Option.mem_def, GoMap.get_eq_some_iff m1 k v hnd,
    GoMap.get_eq_some_iff m2 k v hnd2]
  exact hp.mem_iff

theorem find?_setsEnv_iff (key : Str) (hdr : GoMap (List Str)) (kv : Str × List Str)
    (hnd : (hdr.map (fun x => canon x.1)).Nodup) :
    hdr.reverse.find? (setsEnv key) = some kv ↔ kv ∈ hdr ∧ setsEnv key kv = true := by
  constructor
  · intro hf
    exact ⟨List.mem_reverse.1 (List.mem_of_find?_eq_some hf), List.find?_some hf⟩
  · rintro ⟨hm, hs⟩
    cases hf : hdr.reverse.find? (setsEnv key) with
    | none =>
      rw [List.find?_eq_none] at hf
      exact absurd hs (hf kv (List.mem_reverse.2 hm))
    | some x =>
      have hx : x ∈ hdr := List.mem_reverse.1 (List.mem_of_find?_eq_some hf)
      have hxs : setsEnv key x = true := List.find?_some hf
      have hc : canon x.1 = canon kv.1 :=
        List.append_cancel_left
          (((setsEnv_iff key x).1 hxs).2.trans ((setsEnv_iff key kv).1 hs).2.symm)
      rw [List.inj_on_of_nodup_map hnd hx hm hc]

theorem find?_setsEnv_perm (key : Str) (hdr1 hdr2 : GoMap (List Str))
    (hnd : (hdr1.map (fun x => canon x.1)).Nodup) (hp : hdr1.Perm hdr2) :
    hdr1.reverse.find? (setsEnv key) = hdr2.reverse.find? (setsEnv key) := by
  have hnd2 : (hdr2.map (fun x => canon x.1)).Nodup := ((hp.map _).nodup_iff).1 hnd
  apply Option.ext
  intro kv
  rw [Option.mem_def, Option.mem_def, find?_setsEnv_iff key hdr1 kv hnd,
    find?_setsEnv_iff key hdr2 kv hnd2, hp.mem_iff]

theorem baseEnv_perm (h : CgiHandler) (r : Request) (hdr : GoMap (List Str))
    (hnd : (r.Header.map Prod.fst).Nodup) (hp : r.Header.Perm hdr) :
    baseEnv h { r with Header := hdr } = baseEnv h r := by
  have hg : HeaderGet hdr "Content-Type".toList = HeaderGet r.Header "Content-Type".toList := by
    unfold HeaderGet
    rw [GoMap.get_perm r.Header hdr _ hnd hp]
  unfold baseEnv
  simp only [hg]

/-- C15 as stated fails: with the header names `X-Foo` and `X_foo`, which
have the same canonical name, the value of `HTTP_X_FOO` is the value of the
header that the enumeration visits last. -/
theorem C15_counterexample :
    List.Perm [("X-Foo".toList, ["1".toList]), ("X_foo".toList, ["2".toList])]
        [("X_foo".toList, ["2".toList]), ("X-Foo".toList, ["1".toList])] ∧
      (fcgiEnv phpHandler
        { getRequest "/".toList with
          Header := [("X-Foo".toList, ["1".toList]), ("X_foo".toList, ["2".toList])] }).get
          "HTTP_X_FOO".toList = some "2".toList ∧
      (fcgiEnv phpHandler
        { getRequest "/".toList with
          Header := [("X_foo".toList, ["2".toList]), ("X-Foo".toList, ["1".toList])] }).get
          "HTTP_X_FOO".toList = some "1".toList :=
  ⟨List.Perm.swap _ _ _, by decide, by decide⟩

/-- C15 (amended): for every request in which no two header names have the
same canonical name, the environment is the same mapping for every order in
which the header mapping is enumerated. -/
theorem C15_order_independent (h : CgiHandler) (r : Request) (hdr : GoMap (List Str))
    (hperm : r.Header.Perm hdr)
    (hdistinct : (r.Header.map (fun kv => canon kv.1)).Nodup) (k : Str) :
    (fcgiEnv h { r with Header := hdr }).get k = (fcgiEnv h r).get k := by
  have hnd : (r.Header.map Prod.fst).Nodup := by
    have : r.Header.map (fun kv => canon kv.1) = (r.Header.map Prod.fst).map canon := by
      rw [List.map_map]
      rfl
    rw [this] at hdistinct
    exact List.Nodup.of_map _ hdistinct
  rw [fcgiEnv_eq, fcgiEnv_eq, foldl_headerEnvStep_get, foldl_headerEnvStep_get,
    baseEnv_perm h r hdr hnd hperm]
  rw [show ({ r with Header := hdr } : Request).Header = hdr from rfl,
    find?_setsEnv_perm k r.Header hdr hdistinct hperm]

theorem C15_order_independent_witness :
    (fcgiEnv phpHandler
        { getRequest "/".toList with
          Header := [("X-Bar".toList, ["2".toList]), ("X-Foo".toList, ["1".toList])] }).get
          "HTTP_X_FOO".toList =
      (fcgiEnv phpHandler
        { getRequest "/".toList with
          Header := [("X-Foo".toList, ["1".toList]), ("X-Bar".toList, ["2".toList])] }).get
          "HTTP_X_FOO".toList :=
  C15_order_independent phpHandler
    { getRequest "/".toList with
      Header := [("X-Foo".toList, ["1".toList]), ("X-Bar".toList, ["2".toList])] }
    [("X-Bar".toList, ["2".toList]), ("X-Foo".toList, ["1".toList])]
    (List.Perm.swap _ _ _) (by decide) "HTTP_X_FOO".toList

theorem GoMap.get_set_ne {V : Type} (m : GoMap V) (k k' : Str) (v : V) (h : k ≠ k') :
    (m.set k v).get k' = m.get k' := by
  rw [GoMap.get_set, if_neg h]

theorem GoMap.get_set_self {V : Type} (m : GoMap V) (k : Str) (v : V) :
    (m.set k v).get k = some v := by
  rw [GoMap.get_set, if_pos rfl]

theorem baseEnv_fixed (h : CgiHandler) (r : Request) :
    (baseEnv h r).get "REQUEST_METHOD".toList = some r.Method ∧
      (baseEnv h r).get "SCRIPT_NAME".toList = some r.URL.Path ∧
      (baseEnv h r).get "DOCUMENT_ROOT".toList = some h.Root ∧
      (baseEnv h r).get "QUERY_STRING".toList = some r.URL.RawQuery ∧
      (baseEnv h r).get "REQUEST_URI".toList =
        some (r.URL.Path ++ "?".toList ++ r.URL.RawQuery) ∧
      (baseEnv h r).get "REMOTE_ADDR".toList = some r.RemoteAddr ∧
      (baseEnv h r).get "SERVER_SOFTWARE".toList = some "go / fcgiclient ".toList := by
  unfold baseEnv
  simp only []
  split <;> split <;> refine ⟨?_, ?_, ?_, ?_, ?_, ?_, ?_⟩ <;>
    (repeat (refine (GoMap.get_set_ne _ _ _ _ (by decide)).trans ?_)) <;>
    exact GoMap.get_set_self _ _ _

/-- C16: for every request, whatever its headers, the environment maps
`REQUEST_METHOD` to the method, `SCRIPT_NAME` to the URL path, `DOCUMENT_ROOT`
to the configured root, `QUERY_STRING` to the raw query, `REQUEST_URI` to path,
`?` and query, `REMOTE_ADDR` to the remote address and `SERVER_SOFTWARE` to
the fixed string `go / fcgiclient `. -/
theorem C16_fixed_entries (h : CgiHandler) (r : Request) :
    (fcgiEnv h r).get "REQUEST_METHOD".toList = some r.Method ∧
      (fcgiEnv h r).get "SCRIPT_NAME".toList = some r.URL.Path ∧
      (fcgiEnv h r).get "DOCUMENT_ROOT".toList = some h.Root ∧
      (fcgiEnv h r).get "QUERY_STRING".toList = some r.URL.RawQuery ∧
      (fcgiEnv h r).get "REQUEST_URI".toList =
        some (r.URL.Path ++ "?".toList ++ r.URL.RawQuery) ∧
      (fcgiEnv h r).get "REMOTE_ADDR".toList = some r.RemoteAddr ∧
      (fcgiEnv h r).get "SERVER_SOFTWARE".toList = some "go / fcgiclient ".toList := by
  rw [fcgiEnv_get_of_not_set h r _ (by decide), fcgiEnv_get_of_not_set h r _ (by decide),
    fcgiEnv_get_of_not_set h r _ (by decide), fcgiEnv_get_of_not_set h r _ (by decide),
    fcgiEnv_get_of_not_set h r _ (by decide), fcgiEnv_get_of_not_set h r _ (by decide),
    fcgiEnv_get_of_not_set h r _ (by decide)]
  exact baseEnv_fixed h r

theorem Sprint_pos (i : Int) (hi : 0 < i) : Sprint i = decimal i.toNat := by
  cases i with
  | ofNat n => rfl
  | negSucc n => exact absurd hi (by simp)

theorem baseEnv_content_length (h : CgiHandler) (r : Request) :
    (baseEnv h r).get "CONTENT_LENGTH".toList =
      if r.ContentLength > 0 then some (Sprint r.ContentLength) else none := by
  unfold baseEnv
  simp only []
  split <;> split <;>
    (repeat (refine (GoMap.get_set_ne _ _ _ _ (by decide)).trans ?_)) <;>
    first
    | exact GoMap.get_set_self _ _ _
    | rfl

theorem baseEnv_content_type (h : CgiHandler) (r : Request) :
    (baseEnv h r).get "CONTENT_TYPE".toList =
      if HeaderGet r.Header "Content-Type".toList ≠ [] then
        some (HeaderGet r.Header "Content-Type".toList)
      else none := by
  unfold baseEnv
  simp only []
  split <;> split <;>
    (repeat (refine (GoMap.get_set_ne _ _ _ _ (by decide)).trans ?_)) <;>
    first
    | exact GoMap.get_set_self _ _ _
    | rfl

theorem HeaderGet_eq_iff (hdr : GoMap (List Str)) (key v : Str) :
    (HeaderGet hdr key ≠ [] ∧ v = HeaderGet hdr key) ↔
      v ≠ [] ∧ ∃ rest, hdr.get key = some (v :: rest) := by
  unfold HeaderGet
  cases hg : hdr.get key with
  | none => simp
  | some vs =>
    cases vs with
    | nil => simp
    | cons x xs =>
      simp only [ne_eq, Option.some.injEq, List.cons.injEq, exists_eq_right']
      constructor
      · rintro ⟨h1, rfl⟩
        exact ⟨h1, rfl⟩
      · rintro ⟨h1, rfl⟩
        exact ⟨h1, rfl⟩

/-- C17: the environment has the key `CONTENT_LENGTH` exactly when the declared
content length is positive, with that length in decimal as value; it has the
key `CONTENT_TYPE` exactly when the request has a `Content-Type` header whose
(first) value is not empty, with that value. -/
theorem C17_content_entries (h : CgiHandler) (r : Request) (v : Str) :
    ((fcgiEnv h r).get "CONTENT_LENGTH".toList = some v ↔
        0 < r.ContentLength ∧ v = decimal r.ContentLength.toNat) ∧
      ((fcgiEnv h r).get "CONTENT_TYPE".toList = some v ↔
        v ≠ [] ∧ ∃ rest, r.Header.get "Content-Type".toList = some (v :: rest)) := by
  rw [fcgiEnv_get_of_not_set h r _ (by decide), fcgiEnv_get_of_not_set h r _ (by decide),
    baseEnv_content_length, baseEnv_content_type, ← HeaderGet_eq_iff]
  refine ⟨?_, ?_⟩
  · by_cases hc : r.ContentLength > 0
    · rw [if_pos hc, Sprint_pos _ hc]
      constructor
      · intro e
        exact ⟨hc, (Option.some.inj e).symm⟩
      · rintro ⟨_, e⟩
        rw [e]
    · rw [if_neg hc]
      constructor
      · intro e
        cases e
      · rintro ⟨h1, _⟩
        exact absurd h1 hc
  · by_cases hc : HeaderGet r.Header "Content-Type".toList ≠ []
    · rw [if_pos hc]
      constructor
      · intro e
        exact ⟨hc, (Option.some.inj e).symm⟩
      · rintro ⟨_, e⟩
        rw [e]
    · rw [if_neg hc]
      constructor
      · intro e
        cases e
      · rintro ⟨h1, _⟩
        exact absurd h1 hc

/-! ## The claims on dispatch and on the response -/

theorem resolve_default (h : CgiHandler) (fs : FileSystem) (r : Request)
    (hmiss : fs (filepathJoin [h.Root, requestFile r]) = none ∨
      ∃ info, fs (filepathJoin [h.Root, requestFile r]) = some info ∧ info.IsDir = true)
    (hdef : h.DefaultApp ≠ []) :
    resolve h fs r =
      ⟨h.DefaultApp, (h.LangMap.lookup (Ext h.DefaultApp)).1,
        (h.LangMap.lookup (Ext h.DefaultApp)).2, fs (filepathJoin [h.Root, requestFile r])⟩ := by
  have hcond : fs (filepathJoin [h.Root, requestFile r]) = none ∨
      (fs (filepathJoin [h.Root, requestFile r])).any (·.IsDir) = true := by
    rcases hmiss with hm | ⟨info, hm, hd⟩
    · exact Or.inl hm
    · exact Or.inr (by simp [hm, hd])
  have hlen : h.DefaultApp.length > 0 := List.length_pos.2 hdef
  simp only [resolve, hcond, if_true, hlen]

/-- C18: for every request whose resolved path is missing or a directory (in
particular one whose path extension has no entry in the route table, such as
`/app/`), when a default application is configured and its extension has an
entry, the dispatcher classifies the request as CGI with the interpreter of
the default application and the default application as target; the request is
not handed to static serving, and local execution runs that interpreter on
the default application. -/
theorem C18_default_application (h : CgiHandler) (fs : FileSystem) (r : Request) (bin : Str)
    (hmiss : fs (filepathJoin [h.Root, requestFile r]) = none ∨
      ∃ info, fs (filepathJoin [h.Root, requestFile r]) = some info ∧ info.IsDir = true)
    (hdef : h.DefaultApp ≠ [])
    (hbin : h.LangMap.get (Ext h.DefaultApp) = some bin) :
    resolve h fs r = ⟨h.DefaultApp, bin, true, fs (filepathJoin [h.Root, requestFile r])⟩ ∧
      (∀ file, ServeHTTP h fs r ≠ .serveFile file) ∧
      (h.ServeFcgi = false → h.UseLangMap = true →
        ServeHTTP h fs r =
          .localCGI
            { Path := bin, Root := [], Dir := h.Root, Args := [h.DefaultApp],
              Env := ["SCRIPT_FILENAME=".toList ++ h.DefaultApp,
                "SCRIPT_NAME=".toList ++ r.URL.Path, "DOCUMENT_ROOT=".toList ++ h.Root] }) := by
  have hres : resolve h fs r =
      ⟨h.DefaultApp, bin, true, fs (filepathJoin [h.Root, requestFile r])⟩ := by
    rw [resolve_default h fs r hmiss hdef]
    simp [GoMap.lookup, hbin]
  refine ⟨hres, ?_, ?_⟩
  · intro file
    unfold ServeHTTP
    simp only [hres, if_true]
    split
    · split <;> intro e <;> cases e
    · intro e
      cases e
  · intro hf hu
    unfold ServeHTTP
    simp [hres, hf, hu]

theorem C18_default_application_witness :
    phpHandler.LangMap.get (Ext (requestFile (getRequest "/app/".toList))) = none ∧
    resolve phpHandler exampleFS (getRequest "/app/".toList) =
        ⟨"/www/index.php".toList, "php-cgi".toList, true, some ⟨true⟩⟩ ∧
      ∀ file, ServeHTTP phpHandler exampleFS (getRequest "/app/".toList) ≠ .serveFile file :=
  ⟨by decide, (C18_default_application phpHandler exampleFS (getRequest "/app/".toList)
      "php-cgi".toList (Or.inr ⟨⟨true⟩, by decide, rfl⟩) (by decide) (by decide)).1,
    (C18_default_application phpHandler exampleFS (getRequest "/app/".toList)
      "php-cgi".toList (Or.inr ⟨⟨true⟩, by decide, rfl⟩) (by decide) (by decide)).2.1⟩

/-- C19 as stated fails in two ways.  With a default application configured:
the directory `/www/app` exists and contains `index.html`, no extension of the
request has an interpreter, and the request is run through the default
application `/www/app.pl` instead of being served `/www/app/index.html`.
Without one: the request `/` has no extension, but the lookup is repeated on
the extension of the resolved path `/www/site.php`, which has an interpreter,
and the directory itself is run as a script. -/
theorem C19_counterexample :
    (indexFS (filepathJoin [perlHandler.Root, requestFile (getRequest "/app/".toList)]) =
        some ⟨true⟩ ∧
      (indexFS (filepathJoin
        [filepathJoin [perlHandler.Root, requestFile (getRequest "/app/".toList)],
          "index.html".toList])).isSome = true ∧
      perlHandler.LangMap.get (Ext (requestFile (getRequest "/app/".toList))) = none ∧
      perlHandler.LangMap.get
        (Ext (filepathJoin [perlHandler.Root, requestFile (getRequest "/app/".toList)])) =
          none ∧
      ServeHTTP perlHandler indexFS (getRequest "/app/".toList) =
        .localCGI
          { Path := "perl".toList, Root := [], Dir := "/www".toList,
            Args := ["/www/app.pl".toList],
            Env := ["SCRIPT_FILENAME=/www/app.pl".toList, "SCRIPT_NAME=/app/".toList,
              "DOCUMENT_ROOT=/www".toList] }) ∧
    (dottedRootFS (filepathJoin [dottedRootHandler.Root, requestFile (getRequest "/".toList)]) =
        some ⟨true⟩ ∧
      (dottedRootFS (filepathJoin
        [filepathJoin [dottedRootHandler.Root, requestFile (getRequest "/".toList)],
          "index.html".toList])).isSome = true ∧
      dottedRootHandler.LangMap.get (Ext (requestFile (getRequest "/".toList))) = none ∧
      ServeHTTP dottedRootHandler dottedRootFS (getRequest "/".toList) =
        .localCGI
          { Path := "php-cgi".toList, Root := [], Dir := "/www/site.php".toList,
            Args := ["/www/site.php".toList],
            Env := ["SCRIPT_FILENAME=/www/site.php".toList, "SCRIPT_NAME=/".toList,
              "DOCUMENT_ROOT=/www/site.php".toList] }) := by
  decide

/-- C19 (amended): when no default application is configured, for every
request whose resolved path (the root joined with the requested file) is an
existing directory that contains `index.html`, and the extension of that
resolved path has no interpreter in the route table, the file handed to static
serving is that directory's `index.html`. -/
theorem C19_directory_index (h : CgiHandler) (fs : FileSystem) (r : Request)
    (hdef : h.DefaultApp = [])
    (hdir : ∃ info, fs (filepathJoin [h.Root, requestFile r]) = some info ∧ info.IsDir = true)
    (hindex : (fs (filepathJoin
      [filepathJoin [h.Root, requestFile r], "index.html".toList])).isSome = true)
    (hext : h.LangMap.get (Ext (filepathJoin [h.Root, requestFile r])) = none) :
    ServeHTTP h fs r =
      .serveFile (filepathJoin [filepathJoin [h.Root, requestFile r], "index.html".toList]) := by
  obtain ⟨info, hinfo, hd⟩ := hdir
  have hres : resolve h fs r = ⟨filepathJoin [h.Root, requestFile r], [], false, some info⟩ := by
    simp [resolve, hinfo, hd, hdef, GoMap.lookup, hext]
  have hany : (some info : Option FileInfo).any (·.IsDir) = true := by simp [hd]
  unfold ServeHTTP
  simp only [hres]
  rw [if_neg (by simp), if_pos (Or.inl hany), if_pos hindex]

theorem C19_directory_index_witness :
    ServeHTTP plainHandler indexFS (getRequest "/app/".toList) =
      .serveFile (filepathJoin
        [filepathJoin [plainHandler.Root, requestFile (getRequest "/app/".toList)],
          "index.html".toList]) :=
  C19_directory_index plainHandler indexFS (getRequest "/app/".toList) rfl
    ⟨⟨true⟩, by decide, rfl⟩ (by decide) (by decide)

theorem FcgiHandler_no_delim (h : CgiHandler) (transport : GoMap Str → Str → Str)
    (canonicalKey : Str → Str) (r : Request)
    (hno : ¬ "\r\n\r\n".toList <:+:
      transport (fcgiEnv h r) (if r.Method = "POST".toList then r.Body else [])) :
    FcgiHandler h transport canonicalKey r = .ok ⟨[], 502, []⟩ := by
  unfold FcgiHandler
  simp only []
  rw [Parse_of_no_delim _ hno]
  rfl

/-- C20 as stated fails: for the reply `X-Foo: bar`, without delimiter, the
response has status 502 and an empty body; the message of the parse error is
not written. -/
theorem C20_counterexample :
    ¬ "\r\n\r\n".toList <:+: "X-Foo: bar".toList ∧
      FcgiHandler phpHandler (fun _ _ => "X-Foo: bar".toList) id
        (getRequest "/index.php".toList) = .ok ⟨[], 502, []⟩ := by
  decide

/-- C20 (amended): for every reply of the transport without the delimiter
CR LF CR LF, the response that `FcgiHandler` writes has status 502, no header
and the empty body, the same for every such reply. -/
theorem C20_parse_failure_response (h : CgiHandler) (transport : GoMap Str → Str → Str)
    (canonicalKey : Str → Str) (r : Request)
    (hno : ¬ "\r\n\r\n".toList <:+:
      transport (fcgiEnv h r) (if r.Method = "POST".toList then r.Body else [])) :
    FcgiHandler h transport canonicalKey r = .ok ⟨[], 502, []⟩ :=
  FcgiHandler_no_delim h transport canonicalKey r hno

theorem C20_parse_failure_response_witness :
    FcgiHandler phpHandler (fun _ _ => "X-Foo: bar".toList) id
      (getRequest "/index.php".toList) = .ok ⟨[], 502, []⟩ :=
  C20_parse_failure_response phpHandler (fun _ _ => "X-Foo: bar".toList) id
    (getRequest "/index.php".toList) (by decide)

end Cgiserver
